import Mathlib

/-!
# Verification of the `confuse` obfuscator package

Shallow embedding of the reversible word/character obfuscator of this
repository (`confuse/obfuscator.go` and the historical hash-based variant of
the same package) together with proofs of the specified properties.

Modelling conventions:
* Go `int` values that are provably non-negative at a given program point are
  modelled as `Nat`; values that can genuinely be negative (seeds, the Bézout
  coefficients inside `modularInverse`, sentinel `-1` returns) are `Int`.
  On non-negative operands Go's `%` and `/` agree with `Nat.mod`/`Nat.div`.
* Go loops are modelled by structurally recursive functions with an explicit
  fuel argument, so that every definition evaluates inside the kernel.  A
  `none` result of a fuelled loop means the fuel was exhausted; divergence of
  the Go loop corresponds to `none` for *every* fuel.
* Go strings are Lean `String`s.  Go compares strings bytewise; UTF-8 encoding
  is monotone with respect to code points, so Go's string order coincides with
  Lean's `String` order.
-/

namespace Confuse

/-! ## Number-theory helpers (`confuse/obfuscator.go`) -/

/-- One fuelled unfolding of the loop in `gcd`:
`for b != 0 { a, b = b, a%b }`.  Fuel `b + 1` always suffices because the
second argument strictly decreases. -/
def gcdLoop : Nat → Nat → Nat → Nat
  | 0, a, _ => a
  | fuel + 1, a, b => if b = 0 then a else gcdLoop fuel b (a % b)

/-- `gcd` from `confuse/obfuscator.go`: Euclidean algorithm by repeated
remainder (the Go loop `for b != 0 { a, b = b, a%b }; return a`). -/
def gcd (a b : Nat) : Nat := gcdLoop (b + 1) a b

theorem gcdLoop_eq_gcd : ∀ (fuel a b : Nat), b < fuel → gcdLoop fuel a b = Nat.gcd b a := by
  intro fuel
  induction fuel with
  | zero => intro a b h; omega
  | succ f ih =>
    intro a b h
    by_cases hb : b = 0
    · subst hb; simp [gcdLoop]
    · have hlt : a % b < f := by
        have h1 : a % b < b := Nat.mod_lt _ (Nat.pos_of_ne_zero hb)
        omega
      simp only [gcdLoop, hb, if_false]
      rw [ih b (a % b) hlt, Nat.gcd_rec b a]

/-- The repository's `gcd` agrees with `Nat.gcd`. -/
theorem gcd_eq (a b : Nat) : gcd a b = Nat.gcd a b := by
  rw [gcd, gcdLoop_eq_gcd (b + 1) a b (Nat.lt_succ_self b), Nat.gcd_comm]

/-- The wrapping, re-clamping increment of the search loop in
`generateCoprime`: `base = (base + 1) % m; if base <= 1 { base = 2 }`. -/
def coprimeStep (m base : Nat) : Nat :=
  let b := (base + 1) % m
  if b ≤ 1 then 2 else b

/-- The search loop of `generateCoprime`:
`for gcd(base, m) != 1 { base = (base+1) % m; if base <= 1 { base = 2 } }`.
The fuel counts how many times the guard may be evaluated; `none` means the
fuel ran out before a coprime candidate was found. -/
def coprimeLoop (m base : Nat) : Nat → Option Nat
  | 0 => none
  | fuel + 1 =>
    if gcd base m = 1 then some base else coprimeLoop m (coprimeStep m base) fuel

/-- `generateCoprime(seed, m)` from `confuse/obfuscator.go`:
`base := seed % m; if base <= 1 { base = 2 }`, then search upward (wrapping,
re-clamping) for a candidate coprime to `m`.  Go's `%` on a possibly negative
seed is truncated division remainder, `Int.tmod`. -/
def generateCoprime (seed : Int) (m : Nat) (fuel : Nat) : Option Nat :=
  let b0 := seed.tmod m
  let base := if b0 ≤ 1 then 2 else b0.toNat
  coprimeLoop m base fuel

/-- One fuelled unfolding of the extended-Euclid loop in `modularInverse`:
`for newr != 0 { q := r / newr; t, newt = newt, t - q*newt; r, newr = newr, r - q*newr }`.
Returns the final `(r, t)`.  Fuel `newr + 1` always suffices because `newr`
strictly decreases. -/
def eeLoop : Nat → Nat → Nat → Int → Int → Nat × Int
  | 0, r, _, t, _ => (r, t)
  | fuel + 1, r, newr, t, newt =>
    if newr = 0 then (r, t)
    else
      eeLoop fuel newr (r - r / newr * newr) newt (t - (r / newr : Nat) * newt)

/-- `modularInverse(a, m)` from `confuse/obfuscator.go`: extended Euclidean
algorithm.  Returns `0` for `m == 1`, the sentinel `-1` when `a` is not
invertible, and otherwise the inverse normalised into `[0, m)`.
`a = ((a % m) + m) % m` on a Go `int` is `Int.tmod` twice. -/
def modularInverse (a : Int) (m : Nat) : Int :=
  if m = 1 then 0
  else
    let a' := ((a.tmod m + m).tmod m).toNat
    let rt := eeLoop (a' + 1) m a' 0 1
    if 1 < rt.1 then -1
    else if rt.2 < 0 then rt.2 + m else rt.2

/-! ### Correctness of `modularInverse` -/

/-- Truncated remainder by a positive modulus is greater than `-m`. -/
theorem neg_lt_tmod (a : Int) (m : Nat) (hm : 0 < m) : -(m : Int) < a.tmod m := by
  cases a with
  | ofNat n =>
    have h : 0 ≤ (Int.ofNat n).tmod m := Int.tmod_nonneg _ (Int.ofNat_nonneg n)
    omega
  | negSucc k =>
    have h : (Int.negSucc k).tmod ((m : Nat) : Int) = -(((k + 1) % m : Nat) : Int) := rfl
    have h2 : (k + 1) % m < m := Nat.mod_lt _ hm
    rw [h]
    omega

/-- The double-`tmod` normalisation `((a % m) + m) % m` used by
`modularInverse` lands in `[0, m)` and is congruent to `a`. -/
theorem tmodNorm_spec (a : Int) (m : Nat) (hm : 0 < m) :
    0 ≤ (a.tmod m + m).tmod m ∧ (a.tmod m + m).tmod m < m ∧
      Int.ModEq m ((a.tmod m + m).tmod m) a := by
  have hm0 : (0 : Int) < m := by exact_mod_cast hm
  have hx : -(m : Int) < a.tmod m := neg_lt_tmod a m hm
  have hnn : 0 ≤ a.tmod m + m := by omega
  have heq : (a.tmod m + m).tmod m = (a.tmod m + m) % m :=
    Int.tmod_eq_emod hnn (le_of_lt hm0)
  have h0 : 0 ≤ (a.tmod m + m) % m := Int.emod_nonneg _ (by omega)
  have h1 : (a.tmod m + m) % m < m := Int.emod_lt_of_pos _ hm0
  have e2 : Int.ModEq m ((a.tmod m + m) % m) (a.tmod m + m) :=
    Int.emod_emod_of_dvd _ dvd_rfl
  have e3 : Int.ModEq m (a.tmod m + m) a := by
    refine Int.modEq_iff_dvd.mpr ⟨a.tdiv m - 1, ?_⟩
    linear_combination (-1 : Int) * Int.tmod_add_tdiv a m
  exact ⟨by omega, by omega, by rw [heq]; exact e2.trans e3⟩

/-- If `x * y ≤ 0` then the absolute value of `x - y` is the sum of the
absolute values. -/
theorem natAbs_sub_of_mul_nonpos (x y : Int) (h : x * y ≤ 0) :
    (x - y).natAbs = x.natAbs + y.natAbs := by
  rcases le_or_lt x 0 with hx | hx
  · rcases le_or_lt y 0 with hy | hy
    · have h2 : 0 ≤ x * y := by nlinarith
      have h3 : x * y = 0 := le_antisymm h h2
      rcases mul_eq_zero.mp h3 with h4 | h4 <;> omega
    · omega
  · rcases le_or_lt y 0 with hy | hy
    · omega
    · have h2 : 0 < x * y := mul_pos hx hy
      omega

/-- Loop invariant of the extended Euclidean algorithm in `modularInverse`.
Maintains: the Bézout congruences `a0 * t ≡ r` and `a0 * newt ≡ newr` mod `m`,
the determinant identity `|r * newt - newr * t| = m`, the sign alternation
`t * newt ≤ 0`, and the bound `|t| < m`.  Concludes that the loop ends with
`r = gcd`, the congruence for the final coefficient, and `|t| < m`. -/
theorem eeLoop_spec (m a0 : Nat) (hm : 2 ≤ m) :
    ∀ (fuel r newr : Nat) (t newt : Int),
      newr < fuel → newr < r →
      Int.ModEq m ((a0 : Int) * t) r →
      Int.ModEq m ((a0 : Int) * newt) newr →
      ((r : Int) * newt - (newr : Int) * t).natAbs = m →
      t * newt ≤ 0 →
      t.natAbs < m →
      (eeLoop fuel r newr t newt).1 = Nat.gcd newr r ∧
        Int.ModEq m ((a0 : Int) * (eeLoop fuel r newr t newt).2)
          ((eeLoop fuel r newr t newt).1 : Nat) ∧
        (eeLoop fuel r newr t newt).2.natAbs < m := by
  intro fuel
  induction fuel with
  | zero => intro r newr t newt h1 _ _ _ _ _ _; omega
  | succ f ih =>
    intro r newr t newt hfuel hrr h1 h2 h3 h5 h7
    by_cases hz : newr = 0
    · subst hz
      simp only [eeLoop, if_pos rfl, Nat.gcd_zero_left]
      exact ⟨rfl, h1, h7⟩
    · have hnewrpos : 0 < newr := Nat.pos_of_ne_zero hz
      have hr2 : 2 ≤ r := by omega
      set q : Nat := r / newr with hq
      have hqle : q * newr ≤ r := Nat.div_mul_le_self r newr
      have hmoddef : r - q * newr = r % newr := by
        have h' : newr * (r / newr) + r % newr = r := Nat.div_add_mod r newr
        have h'' : newr * (r / newr) = q * newr := by rw [hq]; ring
        omega
      have hmodlt : r % newr < newr := Nat.mod_lt _ hnewrpos
      simp only [eeLoop, if_neg hz]
      have hstep : r - r / newr * newr = r % newr := by rw [← hq]; exact hmoddef
      rw [hstep]
      -- invariants for the next state
      have hcast : ((r % newr : Nat) : Int) = (r : Int) - (q : Int) * newr := by
        rw [← hmoddef, Nat.cast_sub hqle, Nat.cast_mul]
      have i2' : Int.ModEq m ((a0 : Int) * (t - (q : Nat) * newt)) ((r % newr : Nat) : Int) := by
        rw [hcast]
        have hmul : Int.ModEq m ((q : Int) * ((a0 : Int) * newt)) ((q : Int) * newr) :=
          h2.mul_left _
        have := h1.sub hmul
        calc (a0 : Int) * (t - (q : Nat) * newt)
            = (a0 : Int) * t - (q : Int) * ((a0 : Int) * newt) := by ring
          _ ≡ (r : Int) - (q : Int) * newr [ZMOD (m : Int)] := this
      have i3' : ((newr : Int) * (t - (q : Nat) * newt) - ((r % newr : Nat) : Int) * newt).natAbs
          = m := by
        rw [hcast]
        have : (newr : Int) * (t - (q : Nat) * newt) - ((r : Int) - (q : Int) * newr) * newt
            = -((r : Int) * newt - (newr : Int) * t) := by ring
        rw [this, Int.natAbs_neg]
        exact h3
      have i5' : newt * (t - (q : Nat) * newt) ≤ 0 := by
        have hsq : 0 ≤ (q : Int) * (newt * newt) :=
          mul_nonneg (Int.natCast_nonneg q) (mul_self_nonneg newt)
        nlinarith [h5]
      have i7' : newt.natAbs < m := by
        have hprod : ((r : Int) * newt) * ((newr : Int) * t) ≤ 0 := by
          have hr0 : (0 : Int) ≤ (r : Int) * newr := by positivity
          have : ((r : Int) * newt) * ((newr : Int) * t) = ((r : Int) * newr) * (t * newt) := by
            ring
          rw [this]
          exact mul_nonpos_of_nonneg_of_nonpos hr0 h5
        have habs : ((r : Int) * newt).natAbs + ((newr : Int) * t).natAbs = m := by
          rw [← natAbs_sub_of_mul_nonpos _ _ hprod]
          exact h3
        have hmulabs : ((r : Int) * newt).natAbs = r * newt.natAbs := by
          simp [Int.natAbs_mul]
        have hbound : r * newt.natAbs ≤ m := by omega
        by_contra hcon
        push_neg at hcon
        have h2X : 2 * newt.natAbs ≤ r * newt.natAbs :=
          Nat.mul_le_mul_right _ hr2
        omega
      have := ih newr (r % newr) newt (t - (q : Nat) * newt)
        (by omega) hmodlt h2 i2' i3' i5' i7'
      rcases this with ⟨g1, g2, g3⟩
      refine ⟨?_, g2, g3⟩
      rw [g1]
      exact (Nat.gcd_rec newr r).symm

/-- `modularInverse` returns `0` when the modulus is `1`. -/
theorem modularInverse_one (a : Int) : modularInverse a 1 = 0 := by
  simp [modularInverse]

/-- The gcd is invariant under reducing the first argument mod the second. -/
theorem int_gcd_emod (a : Int) (m : Nat) : Int.gcd (a % (m : Int)) m = Int.gcd a m := by
  have hmoddef : a % (m : Int) = a - (m : Int) * (a / m) := Int.emod_def a m
  apply Nat.dvd_antisymm
  · apply Int.natCast_dvd_natCast.mp
    apply Int.dvd_gcd
    · have h1 : ((Int.gcd (a % m) m : Nat) : Int) ∣ a % m := Int.gcd_dvd_left
      have h2 : ((Int.gcd (a % m) m : Nat) : Int) ∣ m := Int.gcd_dvd_right
      have hsplit : a = a % m + (m : Int) * (a / m) := by omega
      have h3 : ((Int.gcd (a % m) m : Nat) : Int) ∣ a % m + (m : Int) * (a / m) :=
        dvd_add h1 (Dvd.dvd.mul_right h2 _)
      rwa [← hsplit] at h3
    · exact Int.gcd_dvd_right
  · apply Int.natCast_dvd_natCast.mp
    apply Int.dvd_gcd
    · have h1 : ((Int.gcd a m : Nat) : Int) ∣ a := Int.gcd_dvd_left
      have h2 : ((Int.gcd a m : Nat) : Int) ∣ m := Int.gcd_dvd_right
      rw [hmoddef]
      exact dvd_sub h1 (Dvd.dvd.mul_right h2 _)
    · exact Int.gcd_dvd_right

/-- Full correctness of `modularInverse` for `m ≥ 2`: when `gcd(a, m) = 1`
the result is in `[0, m)` and satisfies `a * x ≡ 1 (mod m)`; otherwise the
sentinel `-1` is returned. -/
theorem modularInverse_core (a : Int) (m : Nat) (hm : 2 ≤ m) :
    (Int.gcd a m = 1 →
       0 ≤ modularInverse a m ∧ modularInverse a m < m ∧
         Int.ModEq m (a * modularInverse a m) 1) ∧
    (Int.gcd a m ≠ 1 → modularInverse a m = -1) := by
  have hm1 : m ≠ 1 := by omega
  have hmpos : 0 < m := by omega
  obtain ⟨hn0, hnlt, hne⟩ := tmodNorm_spec a m hmpos
  set norm : Int := (a.tmod m + m).tmod m with hnormdef
  set A : Nat := norm.toNat with hAdef
  have hA : (A : Int) = norm := Int.toNat_of_nonneg hn0
  have hAlt : A < m := by omega
  have hnorm_emod : norm = a % (m : Int) := by
    have h1 : norm % (m : Int) = a % m := hne
    have h2 : norm % (m : Int) = norm := Int.emod_eq_of_lt hn0 hnlt
    omega
  have hgcdA : Nat.gcd A m = Int.gcd a m := by
    rw [← Int.gcd_natCast_natCast, hA, hnorm_emod, int_gcd_emod]
  have hdef : modularInverse a m =
      (if 1 < (eeLoop (A + 1) m A 0 1).1 then -1
       else if (eeLoop (A + 1) m A 0 1).2 < 0 then (eeLoop (A + 1) m A 0 1).2 + m
       else (eeLoop (A + 1) m A 0 1).2) := by
    unfold modularInverse
    rw [if_neg hm1]
  obtain ⟨g1, g2, g3⟩ := eeLoop_spec m A hm (A + 1) m A 0 1
    (Nat.lt_succ_self A) hAlt
    (by simp [Int.ModEq])
    (by simp [Int.ModEq])
    (by simp)
    (by simp)
    (by simpa using hmpos)
  constructor
  · intro hg
    have hg' : Nat.gcd A m = 1 := by omega
    rw [hg'] at g1
    have hrt1 : ¬ 1 < (eeLoop (A + 1) m A 0 1).1 := by omega
    rw [hdef, if_neg hrt1]
    set tf : Int := (eeLoop (A + 1) m A 0 1).2 with htf
    have g2' : Int.ModEq m ((A : Int) * tf) 1 := by
      rw [g1] at g2
      simpa using g2
    have hma : Int.ModEq m (a * tf) 1 := by
      have h1 : Int.ModEq m (a * tf) (norm * tf) := (hne.symm).mul_right tf
      rw [← hA] at h1
      exact h1.trans g2'
    by_cases hneg : tf < 0
    · rw [if_pos hneg]
      refine ⟨by omega, by omega, ?_⟩
      have hshift : Int.ModEq m (tf + m) tf := Int.modEq_iff_dvd.mpr ⟨-1, by ring⟩
      exact (hshift.mul_left a).trans hma
    · rw [if_neg hneg]
      exact ⟨by omega, by omega, hma⟩
  · intro hg
    have hg' : Nat.gcd A m ≠ 1 := by omega
    have hgz : Nat.gcd A m ≠ 0 := by
      intro h0
      rcases Nat.gcd_eq_zero_iff.mp h0 with ⟨-, hm0⟩
      omega
    have hlt : 1 < (eeLoop (A + 1) m A 0 1).1 := by rw [g1]; omega
    rw [hdef, if_pos hlt]

/-- Nat-level packaging of `modularInverse` correctness for a coprime
argument, valid for every modulus `m ≥ 1` (the word and character mappers
use it with `a = generateCoprime(...)`). -/
theorem modularInverse_natCast (aN m : Nat) (hm : 1 ≤ m) (hg : Nat.gcd aN m = 1) :
    0 ≤ modularInverse (aN : Int) m ∧ (modularInverse (aN : Int) m).toNat < m ∧
      (aN * (modularInverse (aN : Int) m).toNat) % m = 1 % m ∧
      modularInverse (aN : Int) m ≠ -1 := by
  rcases eq_or_lt_of_le hm with h1 | h2
  · rw [← h1, modularInverse_one]
    simp
  · have hgInt : Int.gcd (aN : Int) m = 1 := by
      rw [Int.gcd_natCast_natCast]; exact hg
    obtain ⟨hpos, -⟩ := modularInverse_core aN m (by omega)
    obtain ⟨h0, hlt, hmod⟩ := hpos hgInt
    have hTN : ((modularInverse (aN : Int) m).toNat : Int) = modularInverse (aN : Int) m :=
      Int.toNat_of_nonneg h0
    refine ⟨h0, by omega, ?_, by omega⟩
    have hcast : ((aN * (modularInverse (aN : Int) m).toNat % m : Nat) : Int)
        = ((1 % m : Nat) : Int) := by
      rw [Int.natCast_mod, Int.natCast_mod]
      push_cast [hTN]
      exact hmod
    exact_mod_cast hcast

/-! ### Behaviour of `generateCoprime` -/

theorem gcd_pred_self (m : Nat) (hm : 1 ≤ m) : Nat.gcd (m - 1) m = 1 := by
  rcases Nat.lt_or_ge m 3 with h3 | h3
  · interval_cases m <;> decide
  · rw [Nat.gcd_rec (m - 1) m]
    have h2 : m % (m - 1) = 1 := by
      have hsplit : m = (m - 1) + 1 := by omega
      nth_rewrite 1 [hsplit]
      rw [Nat.add_mod_left]
      exact Nat.mod_eq_of_lt (by omega)
    rw [h2, Nat.gcd_one_left]

/-- For `m > 2`, starting from any clamped candidate `base ∈ [2, m)`, the
search loop finds a coprime within `m - 1 - base` steps (at the latest at
`m - 1`, which is always coprime to `m`). -/
theorem coprimeLoop_some (m : Nat) (hm : 2 < m) :
    ∀ (k base fuel : Nat), 2 ≤ base → base < m → m - 1 - base ≤ k → k < fuel →
      ∃ c, coprimeLoop m base fuel = some c ∧ Nat.gcd c m = 1 ∧ 2 ≤ c ∧ c < m := by
  intro k
  induction k with
  | zero =>
    intro base fuel h2 hlt hk hf
    have hb : base = m - 1 := by omega
    obtain ⟨f, rfl⟩ : ∃ f, fuel = f + 1 := ⟨fuel - 1, by omega⟩
    have hgcd : Nat.gcd base m = 1 := by rw [hb]; exact gcd_pred_self m (by omega)
    refine ⟨base, ?_, hgcd, h2, hlt⟩
    simp [coprimeLoop, gcd_eq, hgcd]
  | succ k ih =>
    intro base fuel h2 hlt hk hf
    obtain ⟨f, rfl⟩ : ∃ f, fuel = f + 1 := ⟨fuel - 1, by omega⟩
    by_cases hg : Nat.gcd base m = 1
    · exact ⟨base, by simp [coprimeLoop, gcd_eq, hg], hg, h2, hlt⟩
    · have hbne : base ≠ m - 1 := by
        intro h
        exact hg (by rw [h]; exact gcd_pred_self m (by omega))
      have hblt : base + 1 < m := by omega
      have hstep : coprimeStep m base = base + 1 := by
        unfold coprimeStep
        rw [Nat.mod_eq_of_lt hblt, if_neg (by omega)]
      have hnext := ih (base + 1) f (by omega) hblt (by omega) (by omega)
      simpa [coprimeLoop, gcd_eq, hg, hstep] using hnext

/-- Unfolding of `generateCoprime` (the clamped initial candidate). -/
theorem generateCoprime_def (seed : Int) (m fuel : Nat) :
    generateCoprime seed m fuel =
      coprimeLoop m (if seed.tmod m ≤ 1 then 2 else (seed.tmod m).toNat) fuel := rfl

/-- For `m > 2` and every seed, `generateCoprime` with fuel `m + 1` finds a
candidate that is coprime to `m` and lies in `[2, m)`. -/
theorem generateCoprime_spec (seed : Int) (m : Nat) (hm : 2 < m) :
    ∃ c, generateCoprime seed m (m + 1) = some c ∧ Nat.gcd c m = 1 ∧ 2 ≤ c ∧ c < m := by
  rw [generateCoprime_def]
  have htlt : seed.tmod m < (m : Int) := Int.tmod_lt_of_pos seed (by exact_mod_cast hm.trans' (by omega))
  by_cases hb : seed.tmod m ≤ 1
  · rw [if_pos hb]
    exact coprimeLoop_some m hm (m - 1 - 2) 2 (m + 1) (le_refl 2) (by omega) (by omega) (by omega)
  · rw [if_neg hb]
    push_neg at hb
    have h2 : 2 ≤ (seed.tmod m).toNat := by omega
    have hlt : (seed.tmod m).toNat < m := by omega
    exact coprimeLoop_some m hm (m - 1 - (seed.tmod m).toNat) _ (m + 1) h2 hlt (by omega) (by omega)

/-- At `m = 2` the clamped candidate is always `2`, which is never coprime to
`2`; the loop makes no progress. -/
theorem coprimeLoop_two_none : ∀ fuel, coprimeLoop 2 2 fuel = none := by
  intro fuel
  induction fuel with
  | zero => rfl
  | succ f ih =>
    have h1 : gcd 2 2 = 2 := by decide
    have h2 : coprimeStep 2 2 = 2 := by decide
    simpa [coprimeLoop, h1, h2] using ih

/-- For every seed and every fuel, `generateCoprime(seed, 2)` fails: the Go
loop `for gcd(base, m) != 1 { ... }` never terminates at modulus 2. -/
theorem generateCoprime_two_none (seed : Int) (fuel : Nat) :
    generateCoprime seed 2 fuel = none := by
  rw [generateCoprime_def]
  have h0 : ((2 : Nat) : Int) = (2 : Int) := by norm_num
  have h1 : seed.tmod ((2 : Nat) : Int) ≤ 1 := by
    have h2 : seed.tmod ((2 : Nat) : Int) < ((2 : Nat) : Int) :=
      Int.tmod_lt_of_pos seed (by rw [h0]; norm_num)
    omega
  rw [if_pos h1]
  exact coprimeLoop_two_none fuel

/-! ## Dictionary store (`wordToIndex`, sorted word list)

Go compares strings bytewise-lexicographically.  UTF-8 encoding is monotone
with respect to code points, so this is exactly code-point-lexicographic
order on the characters, which `strLtAux` implements.  (Lean's built-in
`String` order is the same order, but its comparison function is written with
iterators and does not reduce inside the kernel.) -/

def strLtAux : List Char → List Char → Bool
  | [], [] => false
  | [], _ :: _ => true
  | _ :: _, [] => false
  | a :: as, b :: bs => if a < b then true else if b < a then false else strLtAux as bs

/-- Go's `<` on strings. -/
def strLt (s t : String) : Bool := strLtAux s.data t.data

theorem strLtAux_irrefl : ∀ l : List Char, strLtAux l l = false := by
  intro l
  induction l with
  | nil => rfl
  | cons a as ih => simp [strLtAux, lt_irrefl, ih]

theorem strLtAux_asymm : ∀ l1 l2 : List Char, strLtAux l1 l2 = true → strLtAux l2 l1 = false := by
  intro l1
  induction l1 with
  | nil => intro l2 h; cases l2 <;> simp_all [strLtAux]
  | cons a as ih =>
    intro l2 h
    cases l2 with
    | nil => simp [strLtAux] at h
    | cons b bs =>
      simp only [strLtAux] at h ⊢
      rcases lt_trichotomy a b with hab | hab | hab
      · rw [if_neg (asymm hab), if_pos hab]
      · subst hab
        rw [if_neg (lt_irrefl a), if_neg (lt_irrefl a)] at h ⊢
        exact ih bs (by simpa [lt_irrefl] using h)
      · simp [hab, asymm hab] at h

theorem strLt_irrefl (s : String) : strLt s s = false := strLtAux_irrefl s.data

theorem strLt_asymm {s t : String} (h : strLt s t = true) : strLt t s = false :=
  strLtAux_asymm s.data t.data h

/-- The dictionary invariant established by construction in the spec:
strictly ascending in Go's string order (hence duplicate-free). -/
def SortedDict (dict : List String) : Prop :=
  List.Pairwise (fun s t => strLt s t = true) dict

instance : DecidablePred SortedDict := by
  intro dict
  unfold SortedDict
  infer_instance

theorem SortedDict.nodup {dict : List String} (hs : SortedDict dict) : dict.Nodup :=
  hs.imp (fun h => by rintro rfl; simp [strLt_irrefl] at h)

/-- `wordToIndex` from `confuse/obfuscator.go`.  `sort.SearchStrings` on a
sorted slice returns the smallest index whose entry is `≥ word`, i.e. the
number of entries strictly below `word`; the function then checks for an
exact match and returns `-1` otherwise (Go: `idx >= len || dict[idx] != word`). -/
def wordToIndex (dict : List String) (word : String) : Int :=
  let idx := dict.countP (fun s => strLt s word)
  if idx < dict.length ∧ dict.getD idx "" = word then (idx : Int) else -1

/-- In a sorted dictionary, the number of entries below entry `i` is `i`. -/
theorem countP_strLt_sorted :
    ∀ (dict : List String), SortedDict dict →
      ∀ i, i < dict.length → dict.countP (fun s => strLt s (dict.getD i "")) = i := by
  intro dict
  induction dict with
  | nil => intro _ i h; simp at h
  | cons a tl ih =>
    intro hs i h
    rcases List.sorted_cons.mp hs with ⟨hhead, htl⟩
    rcases i with _ | j
    · rw [List.getD_cons_zero, List.countP_cons]
      have h0 : tl.countP (fun s => strLt s a) = 0 := by
        rw [List.countP_eq_zero]
        intro s hsmem
        simp [strLt_asymm (hhead s hsmem)]
      simp [h0, strLt_irrefl]
    · rw [List.getD_cons_succ, List.countP_cons]
      have hjlt : j < tl.length := by simpa using h
      have hmem : tl.getD j "" ∈ tl := by
        rw [List.getD_eq_getElem tl "" hjlt]
        exact List.getElem_mem hjlt
      rw [ih htl j hjlt, hhead _ hmem]
      simp

/-- Looking up entry `i` of a sorted dictionary finds index `i`. -/
theorem wordToIndex_getD (dict : List String) (hs : SortedDict dict)
    (i : Nat) (h : i < dict.length) : wordToIndex dict (dict.getD i "") = i := by
  unfold wordToIndex
  rw [countP_strLt_sorted dict hs i h, if_pos ⟨h, rfl⟩]

/-- Words absent from the dictionary give `-1`. -/
theorem wordToIndex_not_mem (dict : List String) (word : String) (h : word ∉ dict) :
    wordToIndex dict word = -1 := by
  unfold wordToIndex
  rw [if_neg]
  rintro ⟨h1, h2⟩
  apply h
  rw [← h2, List.getD_eq_getElem dict "" h1]
  exact List.getElem_mem h1

/-- Case analysis on the result of `wordToIndex`. -/
theorem wordToIndex_cases (dict : List String) (word : String) :
    wordToIndex dict word = -1 ∨
      (0 ≤ wordToIndex dict word ∧ (wordToIndex dict word).toNat < dict.length ∧
        dict.getD (wordToIndex dict word).toNat "" = word) := by
  unfold wordToIndex
  by_cases hc : dict.countP (fun s => strLt s word) < dict.length ∧
      dict.getD (dict.countP (fun s => strLt s word)) "" = word
  · right
    rw [if_pos hc]
    refine ⟨by positivity, by simp [hc.1], ?_⟩
    simpa using hc.2
  · left
    rw [if_neg hc]

/-! ## Character-level encryption (`encryptChar` / `decryptChar`)

Go iterates over the bytes of the word; every character that belongs to one
of the three charsets is a single ASCII byte, and every byte of a multi-byte
UTF-8 character lies outside all charsets and is passed through unchanged.
On ASCII strings (the scope of the specification's character-level claims)
byte positions and character positions coincide, so the model operates on
characters. -/

def charsetLower : List Char := "abcdefghijklmnopqrstuvwxyz".data

def charsetUpper : List Char := "ABCDEFGHIJKLMNOPQRSTUVWXYZ".data

def charsetDigit : List Char := "0123456789".data

/-- The charset classification block shared by `encryptChar` and
`decryptChar` (`ch >= 'a' && ch <= 'z'`, …); `none` for characters outside
all three classes. -/
def charsetOf (ch : Char) : Option (List Char) :=
  if 'a' ≤ ch ∧ ch ≤ 'z' then some charsetLower
  else if 'A' ≤ ch ∧ ch ≤ 'Z' then some charsetUpper
  else if '0' ≤ ch ∧ ch ≤ '9' then some charsetDigit
  else none

/-- Models `strings.IndexByte`: index of the first occurrence; absence is
encoded as an index `≥ length` (Go returns `-1`, checked by the callers). -/
def indexOfChar (c : Char) : List Char → Nat
  | [] => 0
  | x :: xs => if x = c then 0 else indexOfChar c xs + 1

/-- `encryptChar(ch, pos)` from `confuse/obfuscator.go`: position-dependent
affine mapping inside the character's charset; unclassified characters are
returned unchanged. -/
def encryptChar (seed : Int) (ch : Char) (pos : Nat) : Char :=
  match charsetOf ch with
  | none => ch
  | some charset =>
    let m := charset.length
    let idx := indexOfChar ch charset
    if m ≤ idx then ch
    else
      let seedN := seed.natAbs
      match generateCoprime (seedN : Int) m (m + 1) with
      | none => ch
      | some a =>
        let b := (seedN + pos) % m
        charset.getD ((a * idx + b) % m) ' '

/-- `decryptChar(ch, pos)` from `confuse/obfuscator.go`: the inverse affine
mapping `x = (y - b) * a⁻¹ mod m`; Go computes `(idx - b + m) % m` on ints,
which for `0 ≤ idx` and `b < m` equals `(idx + m - b) % m` on naturals. -/
def decryptChar (seed : Int) (ch : Char) (pos : Nat) : Char :=
  match charsetOf ch with
  | none => ch
  | some charset =>
    let m := charset.length
    let idx := indexOfChar ch charset
    if m ≤ idx then ch
    else
      let seedN := seed.natAbs
      match generateCoprime (seedN : Int) m (m + 1) with
      | none => ch
      | some a =>
        let b := (seedN + pos) % m
        let ainv := modularInverse (a : Int) m
        if ainv = -1 then ch
        else charset.getD ((ainv.toNat * ((idx + m - b) % m)) % m) ' '

/-- The indexed loop of `encryptByChar`: `result[i] = encryptChar(word[i], i)`. -/
def encryptByCharAux (seed : Int) : List Char → Nat → List Char
  | [], _ => []
  | c :: cs, i => encryptChar seed c i :: encryptByCharAux seed cs (i + 1)

/-- The indexed loop of `decryptByChar`. -/
def decryptByCharAux (seed : Int) : List Char → Nat → List Char
  | [], _ => []
  | c :: cs, i => decryptChar seed c i :: decryptByCharAux seed cs (i + 1)

/-- `encryptByChar` from `confuse/obfuscator.go`. -/
def encryptByChar (seed : Int) (word : String) : String :=
  ⟨encryptByCharAux seed word.data 0⟩

/-- `decryptByChar` from `confuse/obfuscator.go`. -/
def decryptByChar (seed : Int) (word : String) : String :=
  ⟨decryptByCharAux seed word.data 0⟩

/-! ## The obfuscator SDK (`confuse/obfuscator.go`) -/

structure ObfuscatorSDK where
  dictionary : List String
  seed : Int
  encryptOutOfDict : Bool

/-- `ObfuscateWord` from `confuse/obfuscator.go`.  The result is `none` when
`generateCoprime` diverges (which happens exactly for dictionaries of size 2;
the Go function then never returns).  Note that Go computes `a` *before*
looking the word up, so divergence hits every input word. -/
def ObfuscateWord (sdk : ObfuscatorSDK) (word : String) : Option String :=
  if word = "" then some word
  else if sdk.dictionary = [] then
    if sdk.encryptOutOfDict then some (encryptByChar sdk.seed word) else some word
  else
    let m := sdk.dictionary.length
    let seedN := sdk.seed.natAbs
    match generateCoprime (seedN : Int) m (m + 1) with
    | none => none
    | some a =>
      let b := seedN % m
      let idx := wordToIndex sdk.dictionary word
      if idx < 0 then
        if sdk.encryptOutOfDict then some (encryptByChar sdk.seed word) else some word
      else
        some (sdk.dictionary.getD ((a * idx.toNat + b) % m) "")

/-- `DeobfuscateWord` from `confuse/obfuscator.go`; `(idx - b + m) % m` on Go
ints equals `(idx + m - b) % m` on naturals since `b < m`. -/
def DeobfuscateWord (sdk : ObfuscatorSDK) (obfWord : String) : Option String :=
  if obfWord = "" then some obfWord
  else if sdk.dictionary = [] then
    if sdk.encryptOutOfDict then some (decryptByChar sdk.seed obfWord) else some obfWord
  else
    let m := sdk.dictionary.length
    let seedN := sdk.seed.natAbs
    match generateCoprime (seedN : Int) m (m + 1) with
    | none => none
    | some a =>
      let b := seedN % m
      let idx := wordToIndex sdk.dictionary obfWord
      if idx < 0 then
        if sdk.encryptOutOfDict then some (decryptByChar sdk.seed obfWord) else some obfWord
      else
        let ainv := modularInverse (a : Int) m
        if ainv = -1 then some obfWord
        else some (sdk.dictionary.getD ((ainv.toNat * ((idx.toNat + m - b) % m)) % m) "")

/-! ### The affine index mapping and its inverse -/

/-- `generateCoprime` succeeds (with fuel `m + 1`) for every modulus except 2. -/
theorem generateCoprime_ok (seed : Int) (m : Nat) (hm : 1 ≤ m) (hm2 : m ≠ 2) :
    ∃ c, generateCoprime seed m (m + 1) = some c ∧ Nat.gcd c m = 1 := by
  rcases Nat.lt_or_ge m 3 with h3 | h3
  · have hm1 : m = 1 := by omega
    subst hm1
    refine ⟨2, ?_, by decide⟩
    rw [generateCoprime_def]
    have h1 : seed.tmod ((1 : Nat) : Int) ≤ 1 := by
      have : ((1 : Nat) : Int) = (1 : Int) := by norm_num
      rw [this, Int.tmod_one]
      omega
    rw [if_pos h1]
    decide
  · obtain ⟨c, h1, h2, -, -⟩ := generateCoprime_spec seed m (by omega)
    exact ⟨c, h1, h2⟩

/-- Inverting the affine index map: applying the inverse transform of
`DeobfuscateWord`/`decryptChar` to `(a * idx + b) % m` recovers `idx`. -/
theorem affine_inverse (m a b idx : Nat) (hm : 1 ≤ m) (hg : Nat.gcd a m = 1)
    (hb : b < m) (hi : idx < m) :
    ((modularInverse (a : Int) m).toNat * (((a * idx + b) % m + m - b) % m)) % m = idx := by
  obtain ⟨-, -, hmod, -⟩ := modularInverse_natCast a m hm hg
  set ainv := (modularInverse (a : Int) m).toNat with hainv
  set F := (a * idx + b) % m with hF
  have step1 : Nat.ModEq m (F + m - b) (a * idx) := by
    have he : (F + m - b) + b = F + m := by omega
    have h2 : Nat.ModEq m (F + m) F := by
      have : Nat.ModEq m m 0 := (Nat.modEq_zero_iff_dvd).mpr dvd_rfl
      simpa using Nat.ModEq.add_left F this
    have h3 : Nat.ModEq m F (a * idx + b) := Nat.mod_modEq _ m
    have h4 : Nat.ModEq m ((F + m - b) + b) (a * idx + b) := by
      rw [he]; exact h2.trans h3
    exact Nat.ModEq.add_right_cancel' b h4
  have step2 : Nat.ModEq m (ainv * ((F + m - b) % m)) idx := by
    have h5 : Nat.ModEq m (ainv * ((F + m - b) % m)) (ainv * (F + m - b)) :=
      (Nat.mod_modEq _ m).mul_left ainv
    have h6 : Nat.ModEq m (ainv * (F + m - b)) (ainv * (a * idx)) := step1.mul_left ainv
    have h7 : Nat.ModEq m (ainv * (a * idx)) idx := by
      have h8 : Nat.ModEq m (a * ainv) 1 := by
        have : (a * ainv) % m = 1 % m := hmod
        exact this
      have h9 : Nat.ModEq m ((a * ainv) * idx) (1 * idx) := h8.mul_right idx
      have h10 : ainv * (a * idx) = (a * ainv) * idx := by ring
      rw [h10]
      simpa using h9
    exact (h5.trans h6).trans h7
  calc (ainv * ((F + m - b) % m)) % m = idx % m := step2
    _ = idx := Nat.mod_eq_of_lt hi

/-- The affine map hits every residue: applying the forward transform to the
inverse image of `k` yields `k` (surjectivity of the index map). -/
theorem affine_forward (m a b k : Nat) (hm : 1 ≤ m) (hg : Nat.gcd a m = 1)
    (hb : b < m) (hk : k < m) :
    (a * (((modularInverse (a : Int) m).toNat * ((k + m - b) % m)) % m) + b) % m = k := by
  obtain ⟨-, -, hmod, -⟩ := modularInverse_natCast a m hm hg
  set ainv := (modularInverse (a : Int) m).toNat with hainv
  have step : Nat.ModEq m (a * ((ainv * ((k + m - b) % m)) % m) + b) k := by
    have h1 : Nat.ModEq m ((ainv * ((k + m - b) % m)) % m) (ainv * (k + m - b)) :=
      (Nat.mod_modEq _ m).trans ((Nat.mod_modEq _ m).mul_left ainv)
    have h2 : Nat.ModEq m (a * ((ainv * ((k + m - b) % m)) % m)) (a * (ainv * (k + m - b))) :=
      h1.mul_left a
    have h3 : Nat.ModEq m (a * (ainv * (k + m - b))) (k + m - b) := by
      have h8 : Nat.ModEq m (a * ainv) 1 := hmod
      have h9 : Nat.ModEq m ((a * ainv) * (k + m - b)) (1 * (k + m - b)) :=
        h8.mul_right (k + m - b)
      have h10 : a * (ainv * (k + m - b)) = (a * ainv) * (k + m - b) := by ring
      rw [h10]
      simpa using h9
    have h4 : Nat.ModEq m (a * ((ainv * ((k + m - b) % m)) % m) + b) ((k + m - b) + b) :=
      (h2.trans h3).add_right b
    have he : (k + m - b) + b = k + m := by omega
    rw [he] at h4
    have h5 : Nat.ModEq m (k + m) k := by
      have : Nat.ModEq m m 0 := (Nat.modEq_zero_iff_dvd).mpr dvd_rfl
      simpa using (Nat.ModEq.add_left k this)
    exact h4.trans h5
  calc (a * ((ainv * ((k + m - b) % m)) % m) + b) % m = k % m := step
    _ = k := Nat.mod_eq_of_lt hk

/-! ### Unfolding lemmas for the word mapper -/

theorem ObfuscateWord_found (sdk : ObfuscatorSDK) (w : String) (a i : Nat)
    (hw : w ≠ "") (hd : sdk.dictionary ≠ [])
    (hgen : generateCoprime (sdk.seed.natAbs : Int) sdk.dictionary.length
      (sdk.dictionary.length + 1) = some a)
    (hidx : wordToIndex sdk.dictionary w = (i : Int)) :
    ObfuscateWord sdk w = some (sdk.dictionary.getD
      ((a * i + sdk.seed.natAbs % sdk.dictionary.length) % sdk.dictionary.length) "") := by
  simp only [ObfuscateWord]
  rw [if_neg hw, if_neg hd, hgen]
  simp only [hidx]
  have hnonneg : ¬ ((i : Int) < 0) := by omega
  rw [if_neg hnonneg]
  simp

theorem ObfuscateWord_notfound (sdk : ObfuscatorSDK) (w : String) (a : Nat)
    (hw : w ≠ "") (hd : sdk.dictionary ≠ [])
    (hgen : generateCoprime (sdk.seed.natAbs : Int) sdk.dictionary.length
      (sdk.dictionary.length + 1) = some a)
    (hidx : wordToIndex sdk.dictionary w = -1) :
    ObfuscateWord sdk w =
      if sdk.encryptOutOfDict then some (encryptByChar sdk.seed w) else some w := by
  simp only [ObfuscateWord]
  rw [if_neg hw, if_neg hd, hgen]
  simp only [hidx]
  norm_num

theorem DeobfuscateWord_found (sdk : ObfuscatorSDK) (w : String) (a i : Nat)
    (hw : w ≠ "") (hd : sdk.dictionary ≠ [])
    (hgen : generateCoprime (sdk.seed.natAbs : Int) sdk.dictionary.length
      (sdk.dictionary.length + 1) = some a)
    (hidx : wordToIndex sdk.dictionary w = (i : Int))
    (hainv : modularInverse (a : Int) sdk.dictionary.length ≠ -1) :
    DeobfuscateWord sdk w = some (sdk.dictionary.getD
      (((modularInverse (a : Int) sdk.dictionary.length).toNat *
        ((i + sdk.dictionary.length - sdk.seed.natAbs % sdk.dictionary.length) %
          sdk.dictionary.length)) % sdk.dictionary.length) "") := by
  simp only [DeobfuscateWord]
  rw [if_neg hw, if_neg hd, hgen]
  simp only [hidx]
  have hnonneg : ¬ ((i : Int) < 0) := by omega
  rw [if_neg hnonneg, if_neg hainv]
  simp

theorem DeobfuscateWord_notfound (sdk : ObfuscatorSDK) (w : String) (a : Nat)
    (hw : w ≠ "") (hd : sdk.dictionary ≠ [])
    (hgen : generateCoprime (sdk.seed.natAbs : Int) sdk.dictionary.length
      (sdk.dictionary.length + 1) = some a)
    (hidx : wordToIndex sdk.dictionary w = -1) :
    DeobfuscateWord sdk w =
      if sdk.encryptOutOfDict then some (decryptByChar sdk.seed w) else some w := by
  simp only [DeobfuscateWord]
  rw [if_neg hw, if_neg hd, hgen]
  simp only [hidx]
  norm_num

/-- Core round-trip for dictionary members: under the documented dictionary
invariant (sorted, duplicate-free, non-empty entries) and for any size other
than the diverging size 2, `DeobfuscateWord ∘ ObfuscateWord` is the identity
on dictionary words. -/
theorem roundtrip_mem (dict : List String) (seed : Int) (fb : Bool) (w : String)
    (hs : SortedDict dict) (hne : "" ∉ dict) (hm2 : dict.length ≠ 2) (hw : w ∈ dict) :
    (ObfuscateWord ⟨dict, seed, fb⟩ w).bind (DeobfuscateWord ⟨dict, seed, fb⟩) = some w := by
  have hd : dict ≠ [] := List.ne_nil_of_mem hw
  have hm1 : 1 ≤ dict.length := List.length_pos.mpr hd
  obtain ⟨a, hgen, hgcd⟩ := generateCoprime_ok (seed.natAbs : Int) dict.length hm1 hm2
  obtain ⟨i, hi, hieq⟩ := List.mem_iff_getElem.mp hw
  have hgetD : dict.getD i "" = w := by rw [List.getD_eq_getElem dict "" hi]; exact hieq
  have hwne : w ≠ "" := by rintro rfl; exact hne hw
  have hidx : wordToIndex dict w = (i : Int) := by
    rw [← hgetD]; exact wordToIndex_getD dict hs i hi
  set m := dict.length with hmdef
  set b := seed.natAbs % m with hbdef
  have hblt : b < m := Nat.mod_lt _ (by omega)
  set j := (a * i + b) % m with hjdef
  have hjlt : j < m := Nat.mod_lt _ (by omega)
  have hobf : ObfuscateWord ⟨dict, seed, fb⟩ w = some (dict.getD j "") :=
    ObfuscateWord_found ⟨dict, seed, fb⟩ w a i hwne hd hgen hidx
  have hw2mem : dict.getD j "" ∈ dict := by
    rw [List.getD_eq_getElem dict "" hjlt]
    exact List.getElem_mem hjlt
  have hw2ne : dict.getD j "" ≠ "" := by
    intro h
    exact hne (h ▸ hw2mem)
  have hidx2 : wordToIndex dict (dict.getD j "") = (j : Int) :=
    wordToIndex_getD dict hs j hjlt
  obtain ⟨-, -, -, hainv⟩ := modularInverse_natCast a m hm1 hgcd
  have hdeobf := DeobfuscateWord_found ⟨dict, seed, fb⟩ (dict.getD j "") a j
    hw2ne hd hgen hidx2 hainv
  rw [hobf, Option.some_bind, hdeobf]
  have hinv : ((modularInverse (a : Int) m).toNat * ((j + m - b) % m)) % m = i :=
    affine_inverse m a b i hm1 hgcd hblt (by omega)
  rw [hinv, hgetD]

/-! ### Character mapper lemmas -/

theorem char_toNat_le_of_le {a b : Char} (h : a ≤ b) : a.toNat ≤ b.toNat := by
  rw [Char.le_def, UInt32.le_def, BitVec.le_def] at h
  exact h

/-- A character of code point below 128 occupies one UTF-8 byte. -/
theorem utf8Size_ascii {c : Char} (h : c.toNat < 128) : c.utf8Size = 1 := by
  unfold Char.utf8Size
  simp only []
  rw [if_pos]
  rw [UInt32.le_def, BitVec.le_def]
  have h127 : (UInt32.ofNatCore 127 Char.utf8Size.proof_1).toBitVec.toNat = 127 := rfl
  have hval : c.val.toBitVec.toNat = c.toNat := rfl
  omega

/-- A character whose code point lies in the code-point range of a contiguous
charset is an element of that charset. -/
theorem mem_charset_of_toNat (cs : List Char) (base len : Nat)
    (hlen : cs.length = len)
    (hval : ∀ k ∈ Finset.range len, (cs.getD k ' ').toNat = base + k)
    {c : Char} (h1 : base ≤ c.toNat) (h2 : c.toNat < base + len) : c ∈ cs := by
  have hklt : c.toNat - base < len := by omega
  have hgk : (cs.getD (c.toNat - base) ' ').toNat = base + (c.toNat - base) :=
    hval _ (Finset.mem_range.mpr hklt)
  have heq : cs.getD (c.toNat - base) ' ' = c := by
    have h3 : Char.ofNat ((cs.getD (c.toNat - base) ' ').toNat) = Char.ofNat c.toNat := by
      rw [hgk]; congr 1; omega
    rwa [Char.ofNat_toNat, Char.ofNat_toNat] at h3
  rw [← heq, List.getD_eq_getElem cs ' ' (by omega)]
  exact List.getElem_mem _

theorem mem_charsetLower {c : Char} (h1 : 'a' ≤ c) (h2 : c ≤ 'z') : c ∈ charsetLower := by
  have hb1 : ('a' : Char).toNat ≤ c.toNat := char_toNat_le_of_le h1
  have hb2 : c.toNat ≤ ('z' : Char).toNat := char_toNat_le_of_le h2
  have e1 : ('a' : Char).toNat = 97 := rfl
  have e2 : ('z' : Char).toNat = 122 := rfl
  exact mem_charset_of_toNat charsetLower 97 26 (by decide) (by decide)
    (by omega) (by omega)

theorem mem_charsetUpper {c : Char} (h1 : 'A' ≤ c) (h2 : c ≤ 'Z') : c ∈ charsetUpper := by
  have hb1 : ('A' : Char).toNat ≤ c.toNat := char_toNat_le_of_le h1
  have hb2 : c.toNat ≤ ('Z' : Char).toNat := char_toNat_le_of_le h2
  have e1 : ('A' : Char).toNat = 65 := rfl
  have e2 : ('Z' : Char).toNat = 90 := rfl
  exact mem_charset_of_toNat charsetUpper 65 26 (by decide) (by decide)
    (by omega) (by omega)

theorem mem_charsetDigit {c : Char} (h1 : '0' ≤ c) (h2 : c ≤ '9') : c ∈ charsetDigit := by
  have hb1 : ('0' : Char).toNat ≤ c.toNat := char_toNat_le_of_le h1
  have hb2 : c.toNat ≤ ('9' : Char).toNat := char_toNat_le_of_le h2
  have e1 : ('0' : Char).toNat = 48 := rfl
  have e2 : ('9' : Char).toNat = 57 := rfl
  exact mem_charset_of_toNat charsetDigit 48 10 (by decide) (by decide)
    (by omega) (by omega)

theorem indexOfChar_lt_of_mem : ∀ {l : List Char} {c : Char}, c ∈ l → indexOfChar c l < l.length := by
  intro l
  induction l with
  | nil => intro c h; cases h
  | cons x xs ih =>
    intro c h
    by_cases hx : x = c
    · simp [indexOfChar, hx]
    · rcases List.mem_cons.mp h with h1 | h1
      · exact absurd h1.symm hx
      · simpa [indexOfChar, hx] using ih h1

theorem getD_indexOfChar : ∀ {l : List Char} {c : Char}, c ∈ l →
    l.getD (indexOfChar c l) ' ' = c := by
  intro l
  induction l with
  | nil => intro c h; cases h
  | cons x xs ih =>
    intro c h
    by_cases hx : x = c
    · simp [indexOfChar, hx]
    · rcases List.mem_cons.mp h with h1 | h1
      · exact absurd h1.symm hx
      · simpa [indexOfChar, hx] using ih h1

theorem indexOfChar_getD : ∀ {l : List Char}, l.Nodup → ∀ {n : Nat}, n < l.length →
    indexOfChar (l.getD n ' ') l = n := by
  intro l
  induction l with
  | nil => intro _ n h; simp at h
  | cons x xs ih =>
    intro hn n h
    rcases List.nodup_cons.mp hn with ⟨hx, hxs⟩
    rcases n with _ | k
    · simp [indexOfChar]
    · have hk : k < xs.length := by simpa using h
      have hmem : xs.getD k ' ' ∈ xs := by
        rw [List.getD_eq_getElem xs ' ' hk]; exact List.getElem_mem _
      have hne : x ≠ xs.getD k ' ' := fun he => hx (he ▸ hmem)
      rw [List.getD_cons_succ]
      simp only [indexOfChar]
      rw [if_neg hne, ih hxs hk]

/-- Facts about the charset selected for a classified character: the
character belongs to it, it has no duplicates, it has more than 2 elements
(so `generateCoprime` terminates), it is closed under classification, and it
is pure ASCII. -/
theorem charsetOf_spec {ch : Char} {cs : List Char} (h : charsetOf ch = some cs) :
    ch ∈ cs ∧ cs.Nodup ∧ 2 < cs.length ∧ (∀ x ∈ cs, charsetOf x = some cs) ∧
      (∀ x ∈ cs, x.toNat < 128) := by
  unfold charsetOf at h
  by_cases h1 : 'a' ≤ ch ∧ ch ≤ 'z'
  · rw [if_pos h1] at h
    obtain rfl : charsetLower = cs := Option.some_injective _ h
    exact ⟨mem_charsetLower h1.1 h1.2, by decide, by decide, by decide, by decide⟩
  · rw [if_neg h1] at h
    by_cases h2 : 'A' ≤ ch ∧ ch ≤ 'Z'
    · rw [if_pos h2] at h
      obtain rfl : charsetUpper = cs := Option.some_injective _ h
      exact ⟨mem_charsetUpper h2.1 h2.2, by decide, by decide, by decide, by decide⟩
    · rw [if_neg h2] at h
      by_cases h3 : '0' ≤ ch ∧ ch ≤ '9'
      · rw [if_pos h3] at h
        obtain rfl : charsetDigit = cs := Option.some_injective _ h
        exact ⟨mem_charsetDigit h3.1 h3.2, by decide, by decide, by decide, by decide⟩
      · rw [if_neg h3] at h
        cases h

theorem encryptChar_unclassified (seed : Int) (ch : Char) (pos : Nat)
    (h : charsetOf ch = none) : encryptChar seed ch pos = ch := by
  simp [encryptChar, h]

theorem decryptChar_unclassified (seed : Int) (ch : Char) (pos : Nat)
    (h : charsetOf ch = none) : decryptChar seed ch pos = ch := by
  simp [decryptChar, h]

/-- Character-level round trip: `decryptChar` inverts `encryptChar` at every
position, for every seed and every character. -/
theorem decryptChar_encryptChar (seed : Int) (ch : Char) (pos : Nat) :
    decryptChar seed (encryptChar seed ch pos) pos = ch := by
  cases hcs : charsetOf ch with
  | none =>
    rw [encryptChar_unclassified seed ch pos hcs, decryptChar_unclassified seed ch pos hcs]
  | some cs =>
    obtain ⟨hmem, hnodup, hlen, hclass, -⟩ := charsetOf_spec hcs
    have hm1 : 1 ≤ cs.length := by omega
    have hidxlt : indexOfChar ch cs < cs.length := indexOfChar_lt_of_mem hmem
    obtain ⟨a, hgen, hgcd⟩ := generateCoprime_ok (seed.natAbs : Int) cs.length (by omega) (by omega)
    have hblt : (seed.natAbs + pos) % cs.length < cs.length := Nat.mod_lt _ (by omega)
    have hjlt : (a * indexOfChar ch cs + (seed.natAbs + pos) % cs.length) % cs.length
        < cs.length := Nat.mod_lt _ (by omega)
    have henc : encryptChar seed ch pos = cs.getD
        ((a * indexOfChar ch cs + (seed.natAbs + pos) % cs.length) % cs.length) ' ' := by
      simp only [encryptChar, hcs]
      rw [if_neg (by omega), hgen]
    have hymem : cs.getD
        ((a * indexOfChar ch cs + (seed.natAbs + pos) % cs.length) % cs.length) ' ' ∈ cs := by
      rw [List.getD_eq_getElem cs ' ' hjlt]
      exact List.getElem_mem _
    obtain ⟨-, -, -, hainv⟩ := modularInverse_natCast a cs.length hm1 hgcd
    have hidx2 : indexOfChar (cs.getD
        ((a * indexOfChar ch cs + (seed.natAbs + pos) % cs.length) % cs.length) ' ') cs
        = (a * indexOfChar ch cs + (seed.natAbs + pos) % cs.length) % cs.length :=
      indexOfChar_getD hnodup hjlt
    rw [henc]
    simp only [decryptChar, hclass _ hymem]
    rw [hidx2, if_neg (by omega)]
    simp only [hgen]
    rw [if_neg hainv, affine_inverse cs.length a ((seed.natAbs + pos) % cs.length)
      (indexOfChar ch cs) hm1 hgcd hblt hidxlt]
    exact getD_indexOfChar hmem

/-- `encryptChar` preserves the UTF-8 byte width of the character (classified
characters map inside an ASCII charset, others are untouched). -/
theorem encryptChar_utf8Size (seed : Int) (ch : Char) (pos : Nat) :
    (encryptChar seed ch pos).utf8Size = ch.utf8Size := by
  cases hcs : charsetOf ch with
  | none => rw [encryptChar_unclassified seed ch pos hcs]
  | some cs =>
    obtain ⟨hmem, -, hlen, -, hascii⟩ := charsetOf_spec hcs
    have hch : ch.utf8Size = 1 := utf8Size_ascii (hascii ch hmem)
    simp only [encryptChar, hcs]
    by_cases hguard : cs.length ≤ indexOfChar ch cs
    · rw [if_pos hguard]
    · rw [if_neg hguard]
      cases hgen : generateCoprime ((seed.natAbs : Nat) : Int) cs.length (cs.length + 1) with
      | none => rfl
      | some a =>
        have hjlt : (a * indexOfChar ch cs + (seed.natAbs + pos) % cs.length) % cs.length
            < cs.length := Nat.mod_lt _ (by omega)
        have hymem : cs.getD
            ((a * indexOfChar ch cs + (seed.natAbs + pos) % cs.length) % cs.length) ' ' ∈ cs := by
          rw [List.getD_eq_getElem cs ' ' hjlt]
          exact List.getElem_mem _
        rw [utf8Size_ascii (hascii _ hymem), hch]

/-! ### Whole-string character encryption -/

theorem encryptByCharAux_length (seed : Int) :
    ∀ (l : List Char) (i : Nat), (encryptByCharAux seed l i).length = l.length := by
  intro l
  induction l with
  | nil => intro i; rfl
  | cons c cs ih => intro i; simp [encryptByCharAux, ih]

theorem decryptByCharAux_encryptByCharAux (seed : Int) :
    ∀ (l : List Char) (i : Nat), decryptByCharAux seed (encryptByCharAux seed l i) i = l := by
  intro l
  induction l with
  | nil => intro i; rfl
  | cons c cs ih =>
    intro i
    simp [encryptByCharAux, decryptByCharAux, decryptChar_encryptChar, ih]

theorem encryptByCharAux_utf8 (seed : Int) :
    ∀ (l : List Char) (i : Nat),
      ((encryptByCharAux seed l i).map Char.utf8Size).sum = (l.map Char.utf8Size).sum := by
  intro l
  induction l with
  | nil => intro i; rfl
  | cons c cs ih =>
    intro i
    simp [encryptByCharAux, encryptChar_utf8Size, ih]

theorem encryptByCharAux_unclassified (seed : Int) :
    ∀ (l : List Char) (i : Nat), (∀ c ∈ l, charsetOf c = none) →
      encryptByCharAux seed l i = l := by
  intro l
  induction l with
  | nil => intro i _; rfl
  | cons c cs ih =>
    intro i h
    simp only [encryptByCharAux]
    rw [encryptChar_unclassified seed c i (h c (List.mem_cons_self c cs)),
      ih (i + 1) (fun x hx => h x (List.mem_cons_of_mem c hx))]

/-- A character outside every charset is passed through unchanged *at its
position* by the indexed encryption loop, whatever the surrounding
characters are. -/
theorem encryptByCharAux_passthrough (seed : Int) :
    ∀ (l : List Char) (i0 k : Nat), k < l.length → charsetOf (l.getD k ' ') = none →
      (encryptByCharAux seed l i0).getD k ' ' = l.getD k ' ' := by
  intro l
  induction l with
  | nil => intro i0 k h _; simp at h
  | cons c cs ih =>
    intro i0 k h hu
    rcases k with _ | j
    · rw [List.getD_cons_zero] at hu ⊢
      show (encryptChar seed c i0 :: encryptByCharAux seed cs (i0 + 1)).getD 0 ' ' = c
      rw [List.getD_cons_zero]
      exact encryptChar_unclassified seed c i0 hu
    · rw [List.getD_cons_succ] at hu ⊢
      show (encryptChar seed c i0 :: encryptByCharAux seed cs (i0 + 1)).getD (j + 1) ' '
        = cs.getD j ' '
      rw [List.getD_cons_succ]
      exact ih (i0 + 1) j (by simpa using h) hu

theorem decryptByCharAux_unclassified (seed : Int) :
    ∀ (l : List Char) (i : Nat), (∀ c ∈ l, charsetOf c = none) →
      decryptByCharAux seed l i = l := by
  intro l
  induction l with
  | nil => intro i _; rfl
  | cons c cs ih =>
    intro i h
    simp only [decryptByCharAux]
    rw [decryptChar_unclassified seed c i (h c (List.mem_cons_self c cs)),
      ih (i + 1) (fun x hx => h x (List.mem_cons_of_mem c hx))]

/-- String-level round trip of the character mapper. -/
theorem decryptByChar_encryptByChar (seed : Int) (w : String) :
    decryptByChar seed (encryptByChar seed w) = w := by
  unfold encryptByChar decryptByChar
  rw [decryptByCharAux_encryptByCharAux seed w.data 0]

/-- Go's `len` on a string counts UTF-8 bytes. -/
def goLen (s : String) : Nat := (s.data.map Char.utf8Size).sum

/-- `encryptByChar` preserves the character count and the byte count. -/
theorem encryptByChar_length (seed : Int) (w : String) :
    (encryptByChar seed w).length = w.length ∧ goLen (encryptByChar seed w) = goLen w := by
  constructor
  · show (encryptByCharAux seed w.data 0).length = w.data.length
    exact encryptByCharAux_length seed w.data 0
  · show ((encryptByCharAux seed w.data 0).map Char.utf8Size).sum = _
    exact encryptByCharAux_utf8 seed w.data 0

/-! ### Remaining word-mapper case lemmas -/

theorem ObfuscateWord_empty (sdk : ObfuscatorSDK) : ObfuscateWord sdk "" = some "" := by
  simp [ObfuscateWord]

theorem DeobfuscateWord_empty (sdk : ObfuscatorSDK) : DeobfuscateWord sdk "" = some "" := by
  simp [DeobfuscateWord]

theorem ObfuscateWord_nil (sdk : ObfuscatorSDK) (w : String) (hw : w ≠ "")
    (hd : sdk.dictionary = []) :
    ObfuscateWord sdk w =
      if sdk.encryptOutOfDict then some (encryptByChar sdk.seed w) else some w := by
  simp only [ObfuscateWord]
  rw [if_neg hw, if_pos hd]

theorem DeobfuscateWord_nil (sdk : ObfuscatorSDK) (w : String) (hw : w ≠ "")
    (hd : sdk.dictionary = []) :
    DeobfuscateWord sdk w =
      if sdk.encryptOutOfDict then some (decryptByChar sdk.seed w) else some w := by
  simp only [DeobfuscateWord]
  rw [if_neg hw, if_pos hd]

theorem ObfuscateWord_diverges (sdk : ObfuscatorSDK) (w : String) (hw : w ≠ "")
    (hd : sdk.dictionary ≠ [])
    (hgen : generateCoprime (sdk.seed.natAbs : Int) sdk.dictionary.length
      (sdk.dictionary.length + 1) = none) :
    ObfuscateWord sdk w = none := by
  simp only [ObfuscateWord]
  rw [if_neg hw, if_neg hd, hgen]

theorem DeobfuscateWord_diverges (sdk : ObfuscatorSDK) (w : String) (hw : w ≠ "")
    (hd : sdk.dictionary ≠ [])
    (hgen : generateCoprime (sdk.seed.natAbs : Int) sdk.dictionary.length
      (sdk.dictionary.length + 1) = none) :
    DeobfuscateWord sdk w = none := by
  simp only [DeobfuscateWord]
  rw [if_neg hw, if_neg hd, hgen]

theorem DeobfuscateWord_noinverse (sdk : ObfuscatorSDK) (w : String) (a i : Nat)
    (hw : w ≠ "") (hd : sdk.dictionary ≠ [])
    (hgen : generateCoprime (sdk.seed.natAbs : Int) sdk.dictionary.length
      (sdk.dictionary.length + 1) = some a)
    (hidx : wordToIndex sdk.dictionary w = (i : Int))
    (hainv : modularInverse (a : Int) sdk.dictionary.length = -1) :
    DeobfuscateWord sdk w = some w := by
  simp only [DeobfuscateWord]
  rw [if_neg hw, if_neg hd, hgen]
  simp only [hidx]
  have hnonneg : ¬ ((i : Int) < 0) := by omega
  rw [if_neg hnonneg, if_pos hainv]

/-- The empty string is never a dictionary hit through `wordToIndex` when the
dictionary does not contain it; on the empty dictionary every lookup misses. -/
theorem wordToIndex_nil (w : String) : wordToIndex [] w = -1 := by
  unfold wordToIndex
  rw [if_neg]
  rintro ⟨h1, -⟩
  simp at h1

/-- Fallback round trip: a word that misses the dictionary is character-
encrypted, and as long as its encrypted form also misses the dictionary, the
reverse operation decrypts it back. -/
theorem roundtrip_fallback (dict : List String) (seed : Int) (w : String)
    (hm2 : dict.length ≠ 2)
    (hidx : wordToIndex dict w = -1)
    (hidx2 : wordToIndex dict (encryptByChar seed w) = -1) :
    (ObfuscateWord ⟨dict, seed, true⟩ w).bind (DeobfuscateWord ⟨dict, seed, true⟩) = some w := by
  by_cases hw : w = ""
  · subst hw
    rw [ObfuscateWord_empty, Option.some_bind, DeobfuscateWord_empty]
  · have hlen : (encryptByChar seed w).length = w.length := (encryptByChar_length seed w).1
    have hyne : encryptByChar seed w ≠ "" := by
      intro h
      apply hw
      have h0 : w.data.length = 0 := by
        have h1 := hlen
        rw [h] at h1
        have h2 : ("" : String).length = 0 := rfl
        have h3 : w.length = w.data.length := rfl
        omega
      exact String.ext (List.eq_nil_of_length_eq_zero h0)
    by_cases hd : dict = []
    · rw [ObfuscateWord_nil ⟨dict, seed, true⟩ w hw hd]
      show (some (encryptByChar seed w)).bind (DeobfuscateWord ⟨dict, seed, true⟩) = some w
      rw [Option.some_bind, DeobfuscateWord_nil ⟨dict, seed, true⟩ _ hyne hd]
      show some (decryptByChar seed (encryptByChar seed w)) = some w
      rw [decryptByChar_encryptByChar]
    · have hm1 : 1 ≤ dict.length := List.length_pos.mpr hd
      obtain ⟨a, hgen, -⟩ := generateCoprime_ok (seed.natAbs : Int) dict.length hm1 hm2
      rw [ObfuscateWord_notfound ⟨dict, seed, true⟩ w a hw hd hgen hidx]
      show (some (encryptByChar seed w)).bind (DeobfuscateWord ⟨dict, seed, true⟩) = some w
      rw [Option.some_bind,
        DeobfuscateWord_notfound ⟨dict, seed, true⟩ _ a hyne hd hgen hidx2]
      show some (decryptByChar seed (encryptByChar seed w)) = some w
      rw [decryptByChar_encryptByChar]

/-- Surjectivity of the word mapper onto the dictionary: every dictionary
word is the image of some dictionary word. -/
theorem obf_surjective (dict : List String) (seed : Int) (fb : Bool)
    (hs : SortedDict dict) (hne : "" ∉ dict) (hm2 : dict.length ≠ 2)
    (w' : String) (hw' : w' ∈ dict) :
    ∃ w ∈ dict, ObfuscateWord ⟨dict, seed, fb⟩ w = some w' := by
  have hd : dict ≠ [] := List.ne_nil_of_mem hw'
  have hm1 : 1 ≤ dict.length := List.length_pos.mpr hd
  obtain ⟨a, hgen, hgcd⟩ := generateCoprime_ok (seed.natAbs : Int) dict.length hm1 hm2
  obtain ⟨k, hk, hkeq⟩ := List.mem_iff_getElem.mp hw'
  have hkD : dict.getD k "" = w' := by rw [List.getD_eq_getElem dict "" hk]; exact hkeq
  have holt : ((modularInverse (a : Int) dict.length).toNat *
      ((k + dict.length - seed.natAbs % dict.length) % dict.length)) % dict.length
      < dict.length := Nat.mod_lt _ (by omega)
  have hwmem : dict.getD (((modularInverse (a : Int) dict.length).toNat *
      ((k + dict.length - seed.natAbs % dict.length) % dict.length)) % dict.length) "" ∈ dict := by
    rw [List.getD_eq_getElem dict "" holt]
    exact List.getElem_mem _
  refine ⟨_, hwmem, ?_⟩
  have hwne : dict.getD (((modularInverse (a : Int) dict.length).toNat *
      ((k + dict.length - seed.natAbs % dict.length) % dict.length)) % dict.length) "" ≠ "" :=
    fun h => hne (h ▸ hwmem)
  have hidx := wordToIndex_getD dict hs _ holt
  rw [ObfuscateWord_found ⟨dict, seed, fb⟩ _ a _ hwne hd hgen hidx]
  rw [affine_forward dict.length a (seed.natAbs % dict.length) k hm1 hgcd
    (Nat.mod_lt _ (by omega)) hk, hkD]

/-- The fallback flag does not influence the treatment of words that the
dictionary lookup finds. -/
theorem flag_independent (dict : List String) (seed : Int) (w : String) (i : Nat)
    (hw : w ≠ "") (hd : dict ≠ []) (hidx : wordToIndex dict w = (i : Int)) :
    ObfuscateWord ⟨dict, seed, true⟩ w = ObfuscateWord ⟨dict, seed, false⟩ w ∧
      DeobfuscateWord ⟨dict, seed, true⟩ w = DeobfuscateWord ⟨dict, seed, false⟩ w := by
  cases hgen : generateCoprime ((seed.natAbs : Nat) : Int) dict.length (dict.length + 1) with
  | none =>
    constructor
    · rw [ObfuscateWord_diverges ⟨dict, seed, true⟩ w hw hd hgen,
        ObfuscateWord_diverges ⟨dict, seed, false⟩ w hw hd hgen]
    · rw [DeobfuscateWord_diverges ⟨dict, seed, true⟩ w hw hd hgen,
        DeobfuscateWord_diverges ⟨dict, seed, false⟩ w hw hd hgen]
  | some a =>
    constructor
    · rw [ObfuscateWord_found ⟨dict, seed, true⟩ w a i hw hd hgen hidx,
        ObfuscateWord_found ⟨dict, seed, false⟩ w a i hw hd hgen hidx]
    · by_cases hainv : modularInverse (a : Int) dict.length = -1
      · rw [DeobfuscateWord_noinverse ⟨dict, seed, true⟩ w a i hw hd hgen hidx hainv,
          DeobfuscateWord_noinverse ⟨dict, seed, false⟩ w a i hw hd hgen hidx hainv]
      · rw [DeobfuscateWord_found ⟨dict, seed, true⟩ w a i hw hd hgen hidx hainv,
          DeobfuscateWord_found ⟨dict, seed, false⟩ w a i hw hd hgen hidx hainv]

/-- Degradation cases: with fallback disabled a dictionary miss (including
the empty-dictionary case) returns the input unchanged; an input made only of
unclassified characters that misses the dictionary is returned unchanged
under either policy. -/
theorem unchanged_core (dict : List String) (seed : Int) (fb : Bool) (w : String)
    (hm2 : dict.length ≠ 2) (hidx : wordToIndex dict w = -1)
    (hcase : fb = false ∨ ∀ c ∈ w.data, charsetOf c = none) :
    ObfuscateWord ⟨dict, seed, fb⟩ w = some w ∧
      DeobfuscateWord ⟨dict, seed, fb⟩ w = some w := by
  by_cases hw : w = ""
  · subst hw
    exact ⟨ObfuscateWord_empty _, DeobfuscateWord_empty _⟩
  · have hkey : (if fb then some (encryptByChar seed w) else some w) = some w ∧
        (if fb then some (decryptByChar seed w) else some w) = some w := by
      rcases hcase with rfl | hall
      · exact ⟨rfl, rfl⟩
      · have he : encryptByChar seed w = w :=
          String.ext (encryptByCharAux_unclassified seed w.data 0 hall)
        have hdc : decryptByChar seed w = w :=
          String.ext (decryptByCharAux_unclassified seed w.data 0 hall)
        cases fb <;> simp [he, hdc]
    by_cases hd : dict = []
    · rw [ObfuscateWord_nil ⟨dict, seed, fb⟩ w hw hd,
        DeobfuscateWord_nil ⟨dict, seed, fb⟩ w hw hd]
      exact hkey
    · have hm1 : 1 ≤ dict.length := List.length_pos.mpr hd
      obtain ⟨a, hgen, -⟩ := generateCoprime_ok (seed.natAbs : Int) dict.length hm1 hm2
      rw [ObfuscateWord_notfound ⟨dict, seed, fb⟩ w a hw hd hgen hidx,
        DeobfuscateWord_notfound ⟨dict, seed, fb⟩ w a hw hd hgen hidx]
      exact hkey

end Confuse

namespace ConfuseHash

/-! ## The historical hash-based obfuscator (`src/unnamed/part_014`)

An alternative generation of the same `confuse` package: field names are
tokenised (underscore and camel-case boundaries), each token is mapped to a
dictionary word through a one-way FNV-1a hash, and the tokens are rejoined
with `'_'`.  The field names handled here are ASCII identifiers, on which
`strings.Split`, `strings.ToLower`, `unicode.IsUpper` and Go's byte indexing
agree with the per-character model used below. -/

structure ObfuscatorSDK where
  dictionary : List String
  seed : Int

/-- One insertion step of the stable ascending sort modelling `sort.Strings`
(ascending in Go's bytewise order `Confuse.strLt`). -/
def insertStr (s : String) : List String → List String
  | [] => [s]
  | t :: ts => if Confuse.strLt t s then t :: insertStr s ts else s :: t :: ts

/-- `sort.Strings`: sort ascending.  Note: sorting is all the constructors
do — there is no deduplication step. -/
def sortStrings (l : List String) : List String := l.foldr insertStr []

/-- The dictionary stored by `NewObfuscatorSDKWithConfig`: a sorted copy of
the custom dictionary when one is supplied (`len(config.CustomDictionary) > 0`),
else the sorted embedded word list (`loadEmbeddedDictionary`).  Neither path
deduplicates. -/
def configDictionary (custom words : List String) : List String :=
  if 0 < custom.length then sortStrings custom else sortStrings words

/-! ### FNV-1a (64-bit), `hash/fnv`, as used by `obfuscateWord` -/

def fnvPrime : Nat := 1099511628211

def fnvOffset : Nat := 14695981039346656037

/-- One byte of FNV-1a-64: `hash = (hash XOR b) * prime` in `uint64`. -/
def fnvStep (h b : Nat) : Nat := ((h ^^^ b) * fnvPrime) % 2 ^ 64

def fnv64a (bytes : List Nat) : Nat := bytes.foldl fnvStep fnvOffset

/-- UTF-8 bytes of an ASCII string (the identifiers considered here are
ASCII, one byte per character). -/
def strBytes (s : String) : List Nat := s.data.map Char.toNat

/-- The four seed bytes `byte(seed), byte(seed>>8), byte(seed>>16),
byte(seed>>24)` hashed by `obfuscateWord`: Go's `byte` of a two's-complement
`int` is its low 8 bits, and `>>` is an arithmetic shift, i.e. floor
division. -/
def seedBytes (seed : Int) : List Nat :=
  [(seed % 256).toNat, ((seed / 2 ^ 8) % 256).toNat,
    ((seed / 2 ^ 16) % 256).toNat, ((seed / 2 ^ 24) % 256).toNat]

/-- `obfuscateWord` from `src/unnamed/part_014`: deterministic FNV-1a hash of
the word followed by the seed bytes, reduced modulo the dictionary size. -/
def obfuscateWord (sdk : ObfuscatorSDK) (word : String) : String :=
  if sdk.dictionary = [] then word
  else
    sdk.dictionary.getD (fnv64a (strBytes word ++ seedBytes sdk.seed) % sdk.dictionary.length) ""

/-! ### The identifier tokenizer -/

/-- The loop of `splitCamelCase`: split before an uppercase letter that
follows a non-uppercase character; `prev` is the previous character,
`current` the word being accumulated. -/
def splitCamelAux : List Char → Char → List Char → List (List Char)
  | [], _, current => if current = [] then [] else [current]
  | r :: rest, prev, current =>
    if r.isUpper && !prev.isUpper then
      if current = [] then splitCamelAux rest r [r]
      else current :: splitCamelAux rest r [r]
    else splitCamelAux rest r (current ++ [r])

/-- `splitCamelCase` from `src/unnamed/part_014`. -/
def splitCamelCase (s : String) : List String :=
  match s.data with
  | [] => []
  | c :: rest => (splitCamelAux rest c [c]).map String.mk

/-- The loop of `strings.Split(s, "_")`: cut at every underscore, keeping
empty segments. -/
def splitUnderscoreAux : List Char → List Char → List String
  | [], current => [String.mk current]
  | c :: rest, current =>
    if c = '_' then String.mk current :: splitUnderscoreAux rest []
    else splitUnderscoreAux rest (current ++ [c])

def splitUnderscore (s : String) : List String := splitUnderscoreAux s.data []

/-- `strings.ToLower` on ASCII identifiers. -/
def toLowerStr (s : String) : String := String.mk (s.data.map Char.toLower)

/-- `splitFieldName` from `src/unnamed/part_014`: split on underscores,
discard empty segments, split each segment at camel-case boundaries, keep the
non-empty words lowercased. -/
def splitFieldName (fieldName : String) : List String :=
  if fieldName = "" then []
  else
    ((splitUnderscore fieldName).filter (fun p => p ≠ "")).flatMap
      (fun part => ((splitCamelCase part).filter (fun w => w ≠ "")).map toLowerStr)

/-! ### Field-level mapping -/

/-- The per-field value computed by the loop body of `ObfuscateFields`. -/
def fieldValue (sdk : ObfuscatorSDK) (field : String) : String :=
  if field = "" then ""
  else
    let words := splitFieldName field
    if words = [] then field
    else String.intercalate "_" (words.map (obfuscateWord sdk))

/-- `ObfuscateFields` from `src/unnamed/part_014`: Go builds
`map[originalField]obfuscatedField`; the model is the association list in
field order (duplicate fields carry the same deterministic value, so lookups
agree with the Go map). -/
def ObfuscateFields (sdk : ObfuscatorSDK) (fields : List String) : List (String × String) :=
  fields.map (fun f => (f, fieldValue sdk f))

/-- `GetReverseMapping` from `src/unnamed/part_014`: invert the freshly
recomputed forward mapping.  Go iterates the map in unspecified order,
letting an arbitrary entry win on collisions; the model keeps the first entry
in field order (whichever entry wins, a collision loses the same
information). -/
def GetReverseMapping (sdk : ObfuscatorSDK) (fields : List String) : List (String × String) :=
  (ObfuscateFields sdk fields).map Prod.swap

/-- The round trip claimed for `GetReverseMapping`: look a field's obfuscated
name up in the reverse mapping. -/
def reverseRoundTrip (sdk : ObfuscatorSDK) (fields : List String) (f : String) : Option String :=
  ((ObfuscateFields sdk fields).lookup f).bind
    (fun s => (GetReverseMapping sdk fields).lookup s)

theorem lookup_map_pair (g : String → String) :
    ∀ (l : List String) (f : String), f ∈ l →
      (l.map (fun x => (x, g x))).lookup f = some (g f) := by
  intro l
  induction l with
  | nil => intro f h; cases h
  | cons a t ih =>
    intro f h
    by_cases hfa : f = a
    · subst hfa
      simp [List.lookup]
    · have hne : (f == a) = false := beq_false_of_ne hfa
      have hmem : f ∈ t := by
        rcases List.mem_cons.mp h with h1 | h1
        · exact absurd h1 hfa
        · exact h1
      simp [List.lookup, hne, ih f hmem]

theorem lookup_map_swap_of_inj (g : String → String) (l : List String)
    (hinj : ∀ a ∈ l, ∀ b ∈ l, g a = g b → a = b) :
    ∀ f ∈ l, (l.map (fun x => (g x, x))).lookup (g f) = some f := by
  induction l with
  | nil => intro f h; cases h
  | cons a t ih =>
    intro f h
    by_cases hga : g f = g a
    · have hfa : f = a := hinj f h a (List.mem_cons_self a t) hga
      subst hfa
      simp [List.lookup]
    · have hne : (g f == g a) = false := beq_false_of_ne hga
      have hmem : f ∈ t := by
        rcases List.mem_cons.mp h with h1 | h1
        · exact absurd (h1 ▸ rfl) hga
        · exact h1
      have hinj' : ∀ x ∈ t, ∀ y ∈ t, g x = g y → x = y := fun x hx y hy =>
        hinj x (List.mem_cons_of_mem a hx) y (List.mem_cons_of_mem a hy)
      simp [List.lookup, hne, ih hinj' f hmem]

/-- When no two fields of the list collide under the forward mapping, the
reverse mapping recovers every field. -/
theorem reverseRoundTrip_of_inj (sdk : ObfuscatorSDK) (fields : List String)
    (hinj : ∀ f1 ∈ fields, ∀ f2 ∈ fields,
      fieldValue sdk f1 = fieldValue sdk f2 → f1 = f2)
    (f : String) (hf : f ∈ fields) : reverseRoundTrip sdk fields f = some f := by
  unfold reverseRoundTrip
  have hfwd : (ObfuscateFields sdk fields).lookup f = some (fieldValue sdk f) :=
    lookup_map_pair (fieldValue sdk) fields f hf
  rw [hfwd, Option.some_bind]
  have hrev : GetReverseMapping sdk fields = fields.map (fun x => (fieldValue sdk x, x)) := by
    unfold GetReverseMapping ObfuscateFields
    rw [List.map_map]
    rfl
  rw [hrev]
  exact lookup_map_swap_of_inj (fieldValue sdk) fields hinj f hf

end ConfuseHash

/-! ## Claim theorems -/

open Confuse

/-- C1: for every seed and every word `w` in the obfuscator's dictionary,
`DeobfuscateWord (ObfuscateWord w) = w`.  The embedded word list
(`data/words.txt`) is not part of the sources; the dictionary is modelled by
the spec's invariant (§3): sorted ascending, distinct, non-empty entries —
and its size is not 2, the one size at which `generateCoprime` diverges
(see C3). -/
theorem C1_dictWord_roundtrip (dict : List String) (seed : Int) (fb : Bool) (w : String)
    (hs : SortedDict dict) (hne : "" ∉ dict) (hm2 : dict.length ≠ 2) (hw : w ∈ dict) :
    (ObfuscateWord ⟨dict, seed, fb⟩ w).bind (DeobfuscateWord ⟨dict, seed, fb⟩) = some w :=
  roundtrip_mem dict seed fb w hs hne hm2 hw

theorem C1_dictWord_roundtrip_witness :
    SortedDict ["apple", "banana", "cherry"] ∧ "" ∉ ["apple", "banana", "cherry"] ∧
      (["apple", "banana", "cherry"] : List String).length ≠ 2 ∧
      "apple" ∈ ["apple", "banana", "cherry"] ∧
      (ObfuscateWord ⟨["apple", "banana", "cherry"], 1, true⟩ "apple").bind
        (DeobfuscateWord ⟨["apple", "banana", "cherry"], 1, true⟩) = some "apple" :=
  ⟨by decide, by decide, by decide, by decide,
    C1_dictWord_roundtrip ["apple", "banana", "cherry"] 1 true "apple"
      (by decide) (by decide) (by decide) (by decide)⟩

/-- C2 counterexample: with seed 1 and the (sorted, duplicate-free,
non-empty) custom dictionary `["b"]`, the ASCII letter `"a"` is not in the
dictionary, fallback character encryption maps it to `"b"` — which *is* a
dictionary word, so deobfuscation routes it through the word mapper and
returns `"b"`, not `"a"`.  The claimed universal round trip fails. -/
theorem C2_counterexample :
    (ObfuscateWord ⟨["b"], 1, true⟩ "a").bind (DeobfuscateWord ⟨["b"], 1, true⟩)
      = some "b" ∧ ("b" : String) ≠ "a" := by
  constructor
  · decide
  · decide

/-- C2 amended: the round trip holds for every seed and string provided the
string's route is unambiguous — it is a dictionary word, or both it and its
character-encrypted image miss the dictionary.  (The original claim fails
when `encryptByChar` happens to produce a dictionary word; see the
counterexample.) -/
theorem C2_roundtrip_amended (dict : List String) (seed : Int) (w : String)
    (hs : SortedDict dict) (hne : "" ∉ dict) (hm2 : dict.length ≠ 2)
    (hroute : w ∈ dict ∨
      (wordToIndex dict w = -1 ∧ wordToIndex dict (encryptByChar seed w) = -1)) :
    (ObfuscateWord ⟨dict, seed, true⟩ w).bind (DeobfuscateWord ⟨dict, seed, true⟩)
      = some w := by
  rcases hroute with hmem | ⟨h1, h2⟩
  · exact roundtrip_mem dict seed true w hs hne hm2 hmem
  · exact roundtrip_fallback dict seed w hm2 h1 h2

theorem C2_roundtrip_amended_witness :
    SortedDict ["apple"] ∧ "" ∉ ["apple"] ∧ (["apple"] : List String).length ≠ 2 ∧
      (wordToIndex ["apple"] "xy" = -1 ∧ wordToIndex ["apple"] (encryptByChar 1 "xy") = -1) ∧
      (ObfuscateWord ⟨["apple"], 1, true⟩ "xy").bind (DeobfuscateWord ⟨["apple"], 1, true⟩)
        = some "xy" :=
  ⟨by decide, by decide, by decide, ⟨by decide, by decide⟩,
    C2_roundtrip_amended ["apple"] 1 "xy" (by decide) (by decide) (by decide)
      (Or.inr ⟨by decide, by decide⟩)⟩

/-- C3 counterexample: at modulus `m = 2` (for instance with seed 5) the
clamped candidate is always 2 and `gcd(2, 2) = 2 ≠ 1`, so the search loop of
`generateCoprime` never exits: the fuelled model fails for *every* fuel,
i.e. the Go loop runs forever, refuting the claim for `m > 1`. -/
theorem C3_counterexample : ¬ ∃ fuel c, generateCoprime 5 2 fuel = some c := by
  rintro ⟨fuel, c, h⟩
  rw [generateCoprime_two_none 5 fuel] at h
  cases h

/-- C3 amended: for every seed and every modulus `m > 2` (rather than
`m > 1`; the loop diverges at `m = 2`), `generateCoprime` terminates — fuel
`m + 1` suffices — returns a value coprime to `m`, and `modularInverse`
never returns the sentinel on it. -/
theorem C3_generateCoprime_amended (seed : Int) (m : Nat) (hm : 2 < m) :
    ∃ c, generateCoprime seed m (m + 1) = some c ∧ Nat.gcd c m = 1 ∧
      modularInverse (c : Int) m ≠ -1 := by
  obtain ⟨c, h1, h2, -, -⟩ := generateCoprime_spec seed m hm
  obtain ⟨-, -, -, h3⟩ := modularInverse_natCast c m (by omega) h2
  exact ⟨c, h1, h2, h3⟩

theorem C3_generateCoprime_amended_witness :
    2 < 26 ∧ ∃ c, generateCoprime 12345 26 27 = some c ∧ Nat.gcd c 26 = 1 ∧
      modularInverse (c : Int) 26 ≠ -1 :=
  ⟨by decide, C3_generateCoprime_amended 12345 26 (by decide)⟩

/-- C4: for a fixed seed, `ObfuscateWord` restricted to the dictionary is a
bijection of the dictionary onto itself: it maps dictionary words to
dictionary words, injectively and surjectively.  Dictionary modelled by the
spec invariant as in C1. -/
theorem C4_bijective (dict : List String) (seed : Int) (fb : Bool)
    (hs : SortedDict dict) (hne : "" ∉ dict) (hm2 : dict.length ≠ 2) :
    (∀ w ∈ dict, ∃ w' ∈ dict, ObfuscateWord ⟨dict, seed, fb⟩ w = some w') ∧
      (∀ w1 ∈ dict, ∀ w2 ∈ dict,
        ObfuscateWord ⟨dict, seed, fb⟩ w1 = ObfuscateWord ⟨dict, seed, fb⟩ w2 → w1 = w2) ∧
      (∀ w' ∈ dict, ∃ w ∈ dict, ObfuscateWord ⟨dict, seed, fb⟩ w = some w') := by
  refine ⟨?_, ?_, ?_⟩
  · intro w hw
    have hd : dict ≠ [] := List.ne_nil_of_mem hw
    have hm1 : 1 ≤ dict.length := List.length_pos.mpr hd
    obtain ⟨a, hgen, -⟩ := generateCoprime_ok (seed.natAbs : Int) dict.length hm1 hm2
    obtain ⟨i, hi, hieq⟩ := List.mem_iff_getElem.mp hw
    have hgetD : dict.getD i "" = w := by
      rw [List.getD_eq_getElem dict "" hi]; exact hieq
    have hwne : w ≠ "" := by rintro rfl; exact hne hw
    have hidx : wordToIndex dict w = (i : Int) := by
      rw [← hgetD]; exact wordToIndex_getD dict hs i hi
    have hjlt : (a * i + seed.natAbs % dict.length) % dict.length < dict.length :=
      Nat.mod_lt _ (by omega)
    refine ⟨dict.getD ((a * i + seed.natAbs % dict.length) % dict.length) "", ?_, ?_⟩
    · rw [List.getD_eq_getElem dict "" hjlt]; exact List.getElem_mem _
    · exact ObfuscateWord_found ⟨dict, seed, fb⟩ w a i hwne hd hgen hidx
  · intro w1 h1 w2 h2 heq
    have r1 := roundtrip_mem dict seed fb w1 hs hne hm2 h1
    have r2 := roundtrip_mem dict seed fb w2 hs hne hm2 h2
    rw [heq] at r1
    have h3 : some w1 = some w2 := r1.symm.trans r2
    exact Option.some_injective _ h3
  · intro w' hw'
    exact obf_surjective dict seed fb hs hne hm2 w' hw'

theorem C4_bijective_witness :
    SortedDict ["apple", "banana", "cherry"] ∧ "" ∉ ["apple", "banana", "cherry"] ∧
      (["apple", "banana", "cherry"] : List String).length ≠ 2 ∧
      ((∀ w ∈ ["apple", "banana", "cherry"], ∃ w' ∈ ["apple", "banana", "cherry"],
          ObfuscateWord ⟨["apple", "banana", "cherry"], 1, true⟩ w = some w') ∧
        (∀ w1 ∈ ["apple", "banana", "cherry"], ∀ w2 ∈ ["apple", "banana", "cherry"],
          ObfuscateWord ⟨["apple", "banana", "cherry"], 1, true⟩ w1 =
            ObfuscateWord ⟨["apple", "banana", "cherry"], 1, true⟩ w2 → w1 = w2) ∧
        (∀ w' ∈ ["apple", "banana", "cherry"], ∃ w ∈ ["apple", "banana", "cherry"],
          ObfuscateWord ⟨["apple", "banana", "cherry"], 1, true⟩ w = some w')) :=
  ⟨by decide, by decide, by decide,
    C4_bijective ["apple", "banana", "cherry"] 1 true (by decide) (by decide) (by decide)⟩

/-- C5: `modularInverse(a, m)` meets its §4.1 contract for every integer `a`
and every `m ≥ 1`: `0` at `m = 1`; for `m > 1` and `gcd(a, m) = 1` the unique
`x ∈ [0, m)` with `(a * x) mod m = 1`; the sentinel `-1` when
`gcd(a, m) ≠ 1`. -/
theorem C5_modularInverse_spec (a : Int) (m : Nat) (hm : 1 ≤ m) :
    (m = 1 → modularInverse a m = 0) ∧
      (1 < m → Int.gcd a m = 1 →
        0 ≤ modularInverse a m ∧ modularInverse a m < m ∧
          (a * modularInverse a m) % (m : Int) = 1 ∧
          (∀ x : Int, 0 ≤ x → x < m → (a * x) % (m : Int) = 1 → x = modularInverse a m)) ∧
      (1 < m → Int.gcd a m ≠ 1 → modularInverse a m = -1) := by
  refine ⟨?_, ?_, ?_⟩
  · rintro rfl
    exact modularInverse_one a
  · intro hm1 hg
    obtain ⟨hok, -⟩ := modularInverse_core a m (by omega)
    obtain ⟨h0, hlt, hmod⟩ := hok hg
    have hmodeq : (a * modularInverse a m) % (m : Int) = 1 := by
      have h1 : (a * modularInverse a m) % (m : Int) = 1 % (m : Int) := hmod
      rw [h1]
      exact Int.emod_eq_of_lt (by omega) (by exact_mod_cast hm1)
    refine ⟨h0, hlt, hmodeq, ?_⟩
    intro x hx0 hxlt hxmod
    have hco : IsCoprime ((m : Nat) : Int) a := by
      rw [Int.isCoprime_iff_gcd_eq_one, Int.gcd_comm]
      exact hg
    have hdvd : ((m : Nat) : Int) ∣ a * (x - modularInverse a m) := by
      have h2 : (a * x) % (m : Int) = (a * modularInverse a m) % (m : Int) := by
        rw [hxmod, hmodeq]
      have h3 : ((m : Nat) : Int) ∣ a * modularInverse a m - a * x :=
        Int.modEq_iff_dvd.mp h2
      have h4 : a * (x - modularInverse a m) = -(a * modularInverse a m - a * x) := by ring
      rw [h4]
      exact h3.neg_right
    have h5 : ((m : Nat) : Int) ∣ x - modularInverse a m :=
      hco.dvd_of_dvd_mul_left hdvd
    have h6 : x - modularInverse a m = 0 :=
      Int.eq_zero_of_abs_lt_dvd h5 (by rw [abs_lt]; omega)
    omega
  · intro hm1 hg
    obtain ⟨-, hbad⟩ := modularInverse_core a m (by omega)
    exact hbad hg

theorem C5_modularInverse_spec_witness :
    1 ≤ 26 ∧
      ((26 = 1 → modularInverse 3 26 = 0) ∧
        (1 < 26 → Int.gcd 3 26 = 1 →
          0 ≤ modularInverse 3 26 ∧ modularInverse 3 26 < 26 ∧
            (3 * modularInverse 3 26) % (26 : Int) = 1 ∧
            (∀ x : Int, 0 ≤ x → x < 26 → (3 * x) % (26 : Int) = 1 → x = modularInverse 3 26)) ∧
        (1 < 26 → Int.gcd 3 26 ≠ 1 → modularInverse 3 26 = -1)) :=
  ⟨by decide, C5_modularInverse_spec 3 26 (by decide)⟩

/-- C6: the claim says construction deduplicates; the code only sorts.  At
the failing input `CustomDictionary = ["a", "a"]`, `NewObfuscatorSDKWithConfig`
stores the sorted-but-duplicated `["a", "a"]`: ascending, yet with a
duplicate entry — contradicting the spec's mandatory-deduplication contract
(§4.2, §3 invariant; §9 flags exactly this). -/
theorem C6_construction_keeps_duplicates :
    ConfuseHash.configDictionary ["a", "a"] [] = ["a", "a"] ∧
      ¬ (ConfuseHash.configDictionary ["a", "a"] []).Nodup ∧
      List.Pairwise (fun s t => Confuse.strLt t s = false)
        (ConfuseHash.configDictionary ["a", "a"] []) := by
  refine ⟨by decide, by decide, by decide⟩

/-- C7 counterexample: the claim's first case (empty dictionary ⇒ input
returned unchanged) is false whenever the fallback policy is enabled (the
default): with seed 1 an empty dictionary encrypts `"a"` to `"b"`.  Its
third case is also false when the all-unclassified input happens to be a
dictionary word: with dictionary `["!", ">", "_"]` and seed 2 the word `"_"`
is mapped to `"!"`. -/
theorem C7_counterexample :
    (ObfuscateWord ⟨[], 1, true⟩ "a" = some "b" ∧ ("b" : String) ≠ "a") ∧
      (ObfuscateWord ⟨["!", ">", "_"], 2, true⟩ "_" = some "!" ∧ ("!" : String) ≠ "_") := by
  exact ⟨⟨by decide, by decide⟩, ⟨by decide, by decide⟩⟩

/-- C7 amended: for dictionaries whose size is not 2 (where the coprime
search hangs), both operations return the input unchanged when the word
misses the dictionary and either (a) the fallback policy is disabled — this
covers the empty dictionary — or (b) the input consists only of characters
outside the three charsets. -/
theorem C7_unchanged_amended (dict : List String) (seed : Int) (fb : Bool) (w : String)
    (hm2 : dict.length ≠ 2) (hidx : wordToIndex dict w = -1)
    (hcase : fb = false ∨ ∀ c ∈ w.data, charsetOf c = none) :
    ObfuscateWord ⟨dict, seed, fb⟩ w = some w ∧
      DeobfuscateWord ⟨dict, seed, fb⟩ w = some w :=
  unchanged_core dict seed fb w hm2 hidx hcase

theorem C7_unchanged_amended_witness :
    (["apple"] : List String).length ≠ 2 ∧ wordToIndex ["apple"] "zz" = -1 ∧
      (ObfuscateWord ⟨["apple"], 1, false⟩ "zz" = some "zz" ∧
        DeobfuscateWord ⟨["apple"], 1, false⟩ "zz" = some "zz") :=
  ⟨by decide, by decide,
    C7_unchanged_amended ["apple"] 1 false "zz" (by decide) (by decide) (Or.inl rfl)⟩

/-- C8: with fallback enabled, a string that misses the dictionary is mapped
to a string of the same length — same character count and same UTF-8 byte
count (`goLen`, Go's `len`) — and every character outside the three charsets
is passed through unchanged at its position.  Size-2 dictionaries are
excluded since there the obfuscator diverges before reaching the fallback
(see C3). -/
theorem C8_length_preserved (dict : List String) (seed : Int) (w : String)
    (hm2 : dict.length ≠ 2) (hidx : wordToIndex dict w = -1) :
    ∃ t, ObfuscateWord ⟨dict, seed, true⟩ w = some t ∧
      t.length = w.length ∧ goLen t = goLen w ∧
      ∀ k, k < w.data.length → charsetOf (w.data.getD k ' ') = none →
        t.data.getD k ' ' = w.data.getD k ' ' := by
  by_cases hw : w = ""
  · subst hw
    refine ⟨"", ObfuscateWord_empty _, rfl, rfl, ?_⟩
    intro k hk _
    have h0 : ("" : String).data.length = 0 := rfl
    omega
  · by_cases hd : dict = []
    · refine ⟨encryptByChar seed w, ?_, (encryptByChar_length seed w).1,
        (encryptByChar_length seed w).2, ?_⟩
      · rw [ObfuscateWord_nil ⟨dict, seed, true⟩ w hw hd]
        rfl
      · intro k hk hu
        exact encryptByCharAux_passthrough seed w.data 0 k hk hu
    · have hm1 : 1 ≤ dict.length := List.length_pos.mpr hd
      obtain ⟨a, hgen, -⟩ := generateCoprime_ok (seed.natAbs : Int) dict.length hm1 hm2
      refine ⟨encryptByChar seed w, ?_, (encryptByChar_length seed w).1,
        (encryptByChar_length seed w).2, ?_⟩
      · rw [ObfuscateWord_notfound ⟨dict, seed, true⟩ w a hw hd hgen hidx]
        rfl
      · intro k hk hu
        exact encryptByCharAux_passthrough seed w.data 0 k hk hu

theorem C8_length_preserved_witness :
    (["apple"] : List String).length ≠ 2 ∧ wordToIndex ["apple"] "user@x.com" = -1 ∧
      ∃ t, ObfuscateWord ⟨["apple"], 12345, true⟩ "user@x.com" = some t ∧
        t.length = ("user@x.com" : String).length ∧ goLen t = goLen "user@x.com" ∧
        ∀ k, k < ("user@x.com" : String).data.length →
          charsetOf (("user@x.com" : String).data.getD k ' ') = none →
          t.data.getD k ' ' = ("user@x.com" : String).data.getD k ' ' :=
  ⟨by decide, by decide,
    C8_length_preserved ["apple"] 12345 "user@x.com" (by decide) (by decide)⟩

/-- C9 counterexample: the fields `"userName"` and `"user_name"` tokenise to
the same word list `["user", "name"]`, hence obfuscate to the same string; a
reverse mapping can only store one original per obfuscated name, so at least
one of the two fields is not recovered.  In the model (first entry wins) the
round trip of `"user_name"` returns `"userName"`. -/
theorem C9_counterexample :
    ("user_name" : String) ∈ ["userName", "user_name"] ∧
      ConfuseHash.reverseRoundTrip ⟨["apple", "banana"], 0⟩ ["userName", "user_name"]
        "user_name" ≠ some "user_name" := by
  exact ⟨by decide, by decide⟩

/-- C9 amended: `GetReverseMapping fields` maps `ObfuscateFields fields f`
back to `f` for every `f` in `fields`, *provided* no two fields of the list
obfuscate to the same string (the forward mapping is injective on the list);
colliding fields — e.g. different delimiter/casing styles of the same token
sequence — cannot all be recovered. -/
theorem C9_reverseMapping_amended (sdk : ConfuseHash.ObfuscatorSDK) (fields : List String)
    (hinj : ∀ f1 ∈ fields, ∀ f2 ∈ fields,
      ConfuseHash.fieldValue sdk f1 = ConfuseHash.fieldValue sdk f2 → f1 = f2)
    (f : String) (hf : f ∈ fields) :
    ConfuseHash.reverseRoundTrip sdk fields f = some f :=
  ConfuseHash.reverseRoundTrip_of_inj sdk fields hinj f hf

theorem C9_reverseMapping_amended_witness :
    (∀ f1 ∈ ["username", "password"], ∀ f2 ∈ ["username", "password"],
      ConfuseHash.fieldValue ⟨["apple", "banana"], 0⟩ f1 =
        ConfuseHash.fieldValue ⟨["apple", "banana"], 0⟩ f2 → f1 = f2) ∧
      ("username" : String) ∈ ["username", "password"] ∧
      ConfuseHash.reverseRoundTrip ⟨["apple", "banana"], 0⟩ ["username", "password"]
        "username" = some "username" :=
  ⟨by decide, by decide,
    C9_reverseMapping_amended ⟨["apple", "banana"], 0⟩ ["username", "password"]
      (by decide) "username" (by decide)⟩

/-- C10: for a word found in the dictionary, the fallback flag
`encryptOutOfDict` has no influence: obfuscation and deobfuscation produce
identical results under both policies (two-run noninterference over the
flag). -/
theorem C10_flag_noninterference (dict : List String) (seed : Int) (w : String)
    (hs : SortedDict dict) (hw : w ∈ dict) :
    ObfuscateWord ⟨dict, seed, true⟩ w = ObfuscateWord ⟨dict, seed, false⟩ w ∧
      DeobfuscateWord ⟨dict, seed, true⟩ w = DeobfuscateWord ⟨dict, seed, false⟩ w := by
  by_cases hempty : w = ""
  · subst hempty
    rw [ObfuscateWord_empty, ObfuscateWord_empty, DeobfuscateWord_empty, DeobfuscateWord_empty]
    exact ⟨rfl, rfl⟩
  · have hd : dict ≠ [] := List.ne_nil_of_mem hw
    obtain ⟨i, hi, hieq⟩ := List.mem_iff_getElem.mp hw
    have hgetD : dict.getD i "" = w := by
      rw [List.getD_eq_getElem dict "" hi]; exact hieq
    have hidx : wordToIndex dict w = (i : Int) := by
      rw [← hgetD]; exact wordToIndex_getD dict hs i hi
    exact flag_independent dict seed w i hempty hd hidx

theorem C10_flag_noninterference_witness :
    SortedDict ["apple", "banana"] ∧ ("apple" : String) ∈ ["apple", "banana"] ∧
      (ObfuscateWord ⟨["apple", "banana"], 3, true⟩ "apple" =
          ObfuscateWord ⟨["apple", "banana"], 3, false⟩ "apple" ∧
        DeobfuscateWord ⟨["apple", "banana"], 3, true⟩ "apple" =
          DeobfuscateWord ⟨["apple", "banana"], 3, false⟩ "apple") :=
  ⟨by decide, by decide,
    C10_flag_noninterference ["apple", "banana"] 3 "apple" (by decide) (by decide)⟩
